import Mathlib

/-!
# Verification of the DT-invariants engine

A shallow embedding of the combinatorial core of the DT-invariants
repository: dimension vectors, cones and their summand/partition
enumeration, the plethystic Exp/Log transforms, the Harder-Narasimhan
recursion, pairings, phases and the motive normalisation.

Modelling conventions:
* `DimensionVector` is `List ℤ` (the Python class is an immutable integer
  tuple).
* Python generators become Lean lists; recursions whose termination the
  Python code leaves implicit get an explicit fuel parameter.  All
  theorems hold for every sufficiently large fuel, so partial enumeration
  never weakens a statement.
* The opaque sympy ring (`FractionalMotive`) is modelled by an arbitrary
  field of characteristic zero with a distinguished element `R`; the
  substitution `subs(R, -(-R)^k)` becomes an abstract family of maps.
  `sympy.factor`/`sympy.expand` are value-preserving canonicalisations,
  hence the identity in the value semantics; the per-object caches are
  value-transparent memoisation and are likewise dropped.
* Methods of the legacy `DimensionVector`/`Cone` API that the motives and
  stability modules still call but that are absent from the current
  sources (`is_zero()`, exact division `d / k`, `pred`, `divmod(d, e)`,
  `contains`) are modelled from the spec next to their modern
  counterparts; each such definition is marked in its doc comment.
-/

namespace DT

/-- A dimension vector: `DimensionVector` is a fixed-length tuple of
integers (`dimension_vector.py`). -/
abbrev DV := List ℤ

/-- Source `DimensionVector.is_zero`: are all coordinates zero? -/
def isZero (d : DV) : Bool := d.all (fun x => x == 0)

/-- Source `DimensionVector.zero(length)`: the zero vector of a given length. -/
def zeroV (n : ℕ) : DV := List.replicate n 0

/-- Source `DimensionVector.__add__`: coordinatewise sum (both vectors must have
the same length). -/
def vadd (d e : DV) : DV := List.zipWith (fun x y => x + y) d e

/-- Source `DimensionVector.__sub__`: coordinatewise difference. -/
def vsub (d e : DV) : DV := List.zipWith (fun x y => x - y) d e

/-- Source `DimensionVector.__mul__`: scaling by an integer factor. -/
def smul (m : ℤ) (d : DV) : DV := d.map (fun x => m * x)

/-- Modelled from the spec: the legacy exact division `d / k` used by the
plethystic transforms (`arg(d / k)` with `k` dividing the gcd of the
coordinates), absent from the current `DimensionVector`. -/
def sdiv (d : DV) (k : ℕ) : DV := d.map (fun x => x / (k : ℤ))

/-- Source `DimensionVector.__lt__`: lexicographic order; comparison of the
first differing coordinate, `False` when the vectors agree. -/
def lexLt : DV → DV → Bool
  | x :: xs, y :: ys => if x = y then lexLt xs ys else decide (x < y)
  | _, _ => false

/-- Coordinatewise order `e ≤ d` (the summand order of the standard
cone). -/
def coordLe (e d : DV) : Bool := (List.zipWith (fun x y => decide (x ≤ y)) e d).all id

/-- Coordinate sum of the non-negative parts: the measure used for the
well-foundedness of the plethystic and HN recursions. -/
def csum (d : DV) : ℕ := (d.map Int.toNat).sum

/-- Source `StandardCone._pred_of(d, upper_bound)`: the lexicographically
greatest summand of `upper_bound` smaller than `d`; `none` when the two
scanning loops of the Python code fall through (the Python method returns
`None` there). -/
def predOf (d ub : DV) : Option DV :=
  match d, ub with
  | x :: xs, u :: us =>
    if u < x then some (u :: us)
    else
      match predOf xs us with
      | some rest => some (x :: rest)
      | none => if 0 < x then some ((x - 1) :: us) else none
  | _, _ => none

/-- The descent chain of `StandardCone._summands`: repeatedly apply
`_pred_of` with the fixed upper bound `d`, yielding each predecessor,
stopping after the zero vector. -/
def predChain (fuel : ℕ) (e d : DV) : List DV :=
  match fuel with
  | 0 => []
  | fuel + 1 =>
    match predOf e d with
    | none => []
    | some e1 => if isZero e1 then [e1] else e1 :: predChain fuel e1 d

/-- Fuel sufficient for the full descent chain inside the coordinate box
`[0, d]`: the size of that box plus one. -/
def boxFuel (d : DV) : ℕ := (d.map (fun x => x.toNat + 1)).prod + 1

/-- The abstract `Cone` protocol (`cone.py`): a rank, the containment
predicate `__contains__`, and the abstract summand enumerator
`_summands(d, below)` (a finite iterator in every concrete subclass). -/
structure Cone where
  rank : ℕ
  mem : DV → Bool
  summandsBelow : DV → DV → List DV

/-- Source `Cone.summands(d)`: `chain([d], self._summands(d, below=d))`. -/
def Cone.summands (c : Cone) (d : DV) : List DV := d :: c.summandsBelow d d

/-- A partition (`dict[DimensionVector, int]`) as an association list of
summands with multiplicities, in insertion order. -/
abbrev Partition := List (DV × ℕ)

/-- Python's `{e: q, **partition}`: key `e` first; if `partition` already
holds `e`, its value overwrites `q`. -/
def dictInsert (e : DV) (q : ℕ) (p : Partition) : Partition :=
  match p.find? (fun x => x.1 == e) with
  | some x => (e, x.2) :: p.filter (fun y => y.1 != e)
  | none => (e, q) :: p

/-- Equality of partitions as Python dict equality: the same keys with
the same multiplicities. -/
def dictEq (p q : Partition) : Bool :=
  p.all (fun x => (q.find? (fun y => y.1 == x.1)).any (fun y => y.2 == x.2)) &&
  q.all (fun y => (p.find? (fun x => x.1 == y.1)).any (fun x => x.2 == y.2))

mutual

/-- Source `Cone._partitions(d, below)`: for every nonzero `e` yielded by
`_summands(d, below)`, run the multiplicity loop.  The fuel only bounds
the recursion depth and the loop length; every theorem below holds for
all fuels. -/
def partsAux (c : Cone) : ℕ → DV → DV → List Partition
  | 0, _, _ => []
  | fuel + 1, d, below =>
    (c.summandsBelow d below).flatMap (fun e =>
      if isZero e then [] else partLoop c fuel d e 1 (vsub d e))

/-- The `while r in self` loop of `Cone._partitions`: with `r = d - q·e`,
yield `{e: q}` when `r` is zero, otherwise prefix `{e: q}` to every
partition of `r` with summands below `e`; then increase `q`. -/
def partLoop (c : Cone) : ℕ → DV → DV → ℕ → DV → List Partition
  | 0, _, _, _, _ => []
  | fuel + 1, d, e, q, r =>
    if c.mem r then
      (if isZero r then [[(e, q)]]
       else (partsAux c fuel r e).map (fun p => dictInsert e q p)) ++
      partLoop c fuel d e (q + 1) (vsub r e)
    else []

end

/-- Source `Cone.partitions(d)`: `chain([{d: 1}], self._partitions(d, below=d))`. -/
def conePartitions (c : Cone) (fuel : ℕ) (d : DV) : List Partition :=
  [(d, 1)] :: partsAux c fuel d d

/-- Source `StandardCone(rank)`: all vectors of the given length with
non-negative coordinates; `_summands` is the `_pred_of` descent chain
(with enough internal fuel for the full chain). -/
def sc (rank : ℕ) : Cone where
  rank := rank
  mem := fun d => d.length == rank && d.all (fun x => 0 ≤ x)
  summandsBelow := fun d below =>
    if isZero below then [] else predChain (boxFuel d) below d

/-- Nonnegativity of all coordinates (membership in the standard cone,
up to the length check). -/
def NN (d : DV) : Prop := ∀ x ∈ d, 0 ≤ x

/-- Coordinatewise comparison as a proposition. -/
def CLe (e d : DV) : Prop := List.Forall₂ (fun x y => x ≤ y) e d

/-- Size of the coordinate box `[0, d]`. -/
def boxSize (d : DV) : ℕ := (d.map (fun x => x.toNat + 1)).prod

/-- Mixed-radix value of a vector with radices taken from the box of
`d`: the position of `e` in the lexicographic enumeration of the box. -/
def nuVal : DV → DV → ℕ
  | x :: xs, _ :: ys => x.toNat * boxSize ys + nuVal xs ys
  | _, _ => 0

theorem lexLt_cons (x y : ℤ) (xs ys : List ℤ) :
    lexLt (x :: xs) (y :: ys) = if x = y then lexLt xs ys else decide (x < y) :=
  rfl

theorem lexLt_irrefl (d : DV) : lexLt d d = false := by
  induction d with
  | nil => rfl
  | cons x xs ih => rw [lexLt_cons, if_pos rfl, ih]

theorem lexLt_ne {a b : DV} (h : lexLt a b = true) : a ≠ b := by
  intro he; subst he; rw [lexLt_irrefl] at h; exact Bool.noConfusion h

theorem lexLt_trans : ∀ {a b c : DV}, lexLt a b = true → lexLt b c = true →
    lexLt a c = true := by
  intro a
  induction a with
  | nil => intro b c h; cases b <;> simp [lexLt] at h
  | cons x xs ih =>
    intro b c h1 h2
    match b, c with
    | y :: ys, z :: zs =>
      rw [lexLt_cons] at h1 h2 ⊢
      by_cases hxy : x = y
      · subst hxy
        rw [if_pos rfl] at h1
        by_cases hxz : x = z
        · subst hxz; rw [if_pos rfl] at h2 ⊢; exact ih h1 h2
        · rw [if_neg hxz] at h2 ⊢; exact h2
      · rw [if_neg hxy] at h1
        have hxy' : x < y := of_decide_eq_true h1
        by_cases hyz : y = z
        · subst hyz; rw [if_neg hxy]; exact h1
        · rw [if_neg hyz] at h2
          have hyz' : y < z := of_decide_eq_true h2
          have hxz : x < z := lt_trans hxy' hyz'
          rw [if_neg (by omega), decide_eq_true hxz]
    | y :: ys, [] => simp [lexLt] at h2
    | [], _ => simp [lexLt] at h1

theorem CLe.len {e d : DV} (h : CLe e d) : e.length = d.length :=
  List.Forall₂.length_eq h

theorem CLe.refl (d : DV) : CLe d d := by
  induction d with
  | nil => exact List.Forall₂.nil
  | cons x xs ih => exact List.Forall₂.cons le_rfl ih

theorem CLe.trans {a b c : DV} (h1 : CLe a b) (h2 : CLe b c) : CLe a c := by
  induction h1 generalizing c with
  | nil => cases h2; exact List.Forall₂.nil
  | cons hxy _ ih =>
    cases h2 with
    | cons hyz htl => exact List.Forall₂.cons (le_trans hxy hyz) (ih htl)

theorem isZero_iff {d : DV} : isZero d = true ↔ ∀ x ∈ d, x = 0 := by
  simp [isZero, List.all_eq_true]

theorem eq_zeroV_of_isZero {d : DV} (h : isZero d = true) :
    d = zeroV d.length := by
  rw [isZero_iff] at h
  induction d with
  | nil => rfl
  | cons x xs ih =>
    have hx := h x (List.mem_cons_self x xs)
    have hxs := ih (fun y hy => h y (List.mem_cons_of_mem _ hy))
    rw [List.length_cons, zeroV, List.replicate_succ, hx]
    exact congrArg (fun l => (0 : ℤ) :: l) hxs

theorem isZero_zeroV (n : ℕ) : isZero (zeroV n) = true := by
  rw [isZero_iff]; intro x hx
  simp [zeroV] at hx; exact hx.2

theorem nuVal_eq_zero_of_zero {e d : DV} (h : ∀ x ∈ e, x = 0) :
    nuVal e d = 0 := by
  induction e generalizing d with
  | nil => cases d <;> rfl
  | cons x xs ih =>
    cases d with
    | nil => rfl
    | cons y ys =>
      have hx := h x (by simp)
      simp [nuVal, hx, ih (fun z hz => h z (by simp [hz]))]

theorem boxSize_pos (d : DV) : 0 < boxSize d := by
  induction d with
  | nil => simp [boxSize]
  | cons x xs ih =>
    simp only [boxSize, List.map_cons, List.prod_cons]
    exact Nat.mul_pos (Nat.succ_pos _) ih

theorem boxSize_cons (y : ℤ) (ys : List ℤ) :
    boxSize (y :: ys) = (y.toNat + 1) * boxSize ys := by
  simp [boxSize]

theorem nuVal_cons (x y : ℤ) (xs ys : List ℤ) :
    nuVal (x :: xs) (y :: ys) = x.toNat * boxSize ys + nuVal xs ys := rfl

theorem nuVal_self (d : DV) : nuVal d d + 1 = boxSize d := by
  induction d with
  | nil => simp [nuVal, boxSize]
  | cons x xs ih =>
    rw [nuVal_cons, boxSize_cons, Nat.succ_mul]
    omega

theorem nuVal_lt_boxSize {e d : DV} (hnn : NN e) (hle : CLe e d) :
    nuVal e d < boxSize d := by
  induction hle with
  | nil => simp [nuVal, boxSize]
  | @cons x y xs ys hxy _ ih =>
    have hx : 0 ≤ x := hnn x (List.mem_cons_self x xs)
    have hxs : NN xs := fun z hz => hnn z (List.mem_cons_of_mem _ hz)
    have h2 := ih hxs
    have h1 : x.toNat ≤ y.toNat := by omega
    have h3 := Nat.mul_le_mul_right (boxSize ys) h1
    rw [nuVal_cons, boxSize_cons, Nat.succ_mul]
    omega

theorem predOf_length : ∀ {d ub e : DV}, predOf d ub = some e →
    e.length = ub.length := by
  intro d
  induction d with
  | nil => intro ub e h; cases ub <;> simp [predOf] at h
  | cons x xs ih =>
    intro ub e h
    cases ub with
    | nil => simp [predOf] at h
    | cons u us =>
      rw [predOf] at h
      by_cases hux : u < x
      · rw [if_pos hux] at h
        cases h; rfl
      · rw [if_neg hux] at h
        cases hrec : predOf xs us with
        | some rest =>
          rw [hrec] at h; cases h
          simpa using ih hrec
        | none =>
          rw [hrec] at h
          by_cases hx : 0 < x
          · rw [if_pos hx] at h; cases h; rfl
          · rw [if_neg hx] at h; cases h

theorem predOf_lexLt : ∀ {d ub e : DV}, predOf d ub = some e →
    lexLt e d = true := by
  intro d
  induction d with
  | nil => intro ub e h; cases ub <;> simp [predOf] at h
  | cons x xs ih =>
    intro ub e h
    cases ub with
    | nil => simp [predOf] at h
    | cons u us =>
      rw [predOf] at h
      by_cases hux : u < x
      · rw [if_pos hux] at h; cases h
        rw [lexLt_cons, if_neg (by omega), decide_eq_true hux]
      · rw [if_neg hux] at h
        cases hrec : predOf xs us with
        | some rest =>
          rw [hrec] at h; cases h
          rw [lexLt_cons, if_pos rfl]; exact ih hrec
        | none =>
          rw [hrec] at h
          by_cases hx : 0 < x
          · rw [if_pos hx] at h; cases h
            rw [lexLt_cons, if_neg (by omega)]
            exact decide_eq_true (by omega)
          · rw [if_neg hx] at h; cases h

theorem predOf_le_ub : ∀ {d ub e : DV}, predOf d ub = some e → CLe e ub := by
  intro d
  induction d with
  | nil => intro ub e h; cases ub <;> simp [predOf] at h
  | cons x xs ih =>
    intro ub e h
    cases ub with
    | nil => simp [predOf] at h
    | cons u us =>
      rw [predOf] at h
      by_cases hux : u < x
      · rw [if_pos hux] at h; cases h
        exact List.Forall₂.cons le_rfl (CLe.refl us)
      · rw [if_neg hux] at h
        cases hrec : predOf xs us with
        | some rest =>
          rw [hrec] at h; cases h
          exact List.Forall₂.cons (by omega) (ih hrec)
        | none =>
          rw [hrec] at h
          by_cases hx : 0 < x
          · rw [if_pos hx] at h; cases h
            exact List.Forall₂.cons (by omega) (CLe.refl us)
          · rw [if_neg hx] at h; cases h

theorem predOf_nn : ∀ {d ub e : DV}, NN d → NN ub → predOf d ub = some e →
    NN e := by
  intro d
  induction d with
  | nil => intro ub e _ _ h; cases ub <;> simp [predOf] at h
  | cons x xs ih =>
    intro ub e hd hub h
    cases ub with
    | nil => simp [predOf] at h
    | cons u us =>
      have hdx : 0 ≤ x := hd x (List.mem_cons_self x xs)
      have hdxs : NN xs := fun z hz => hd z (List.mem_cons_of_mem _ hz)
      have hubu : 0 ≤ u := hub u (List.mem_cons_self u us)
      have hubus : NN us := fun z hz => hub z (List.mem_cons_of_mem _ hz)
      rw [predOf] at h
      by_cases hux : u < x
      · rw [if_pos hux] at h; cases h
        intro z hz
        rcases List.mem_cons.mp hz with rfl | hz
        · exact hubu
        · exact hubus z hz
      · rw [if_neg hux] at h
        cases hrec : predOf xs us with
        | some rest =>
          rw [hrec] at h; cases h
          intro z hz
          rcases List.mem_cons.mp hz with rfl | hz
          · exact hdx
          · exact ih hdxs hubus hrec z hz
        | none =>
          rw [hrec] at h
          by_cases hx : 0 < x
          · rw [if_pos hx] at h; cases h
            intro z hz
            rcases List.mem_cons.mp hz with rfl | hz
            · omega
            · exact hubus z hz
          · rw [if_neg hx] at h; cases h

theorem predOf_zero : ∀ {d ub : DV}, (∀ x ∈ d, x = 0) → NN ub →
    d.length = ub.length → predOf d ub = none := by
  intro d
  induction d with
  | nil => intro ub _ _ hlen; cases ub with
    | nil => rfl
    | cons u us => simp at hlen
  | cons x xs ih =>
    intro ub h hub hlen
    cases ub with
    | nil => simp at hlen
    | cons u us =>
      have hx : x = 0 := h x (List.mem_cons_self x xs)
      have hxs : ∀ z ∈ xs, z = 0 := fun z hz => h z (List.mem_cons_of_mem _ hz)
      have hubu : 0 ≤ u := hub u (List.mem_cons_self u us)
      have hubus : NN us := fun z hz => hub z (List.mem_cons_of_mem _ hz)
      rw [predOf, if_neg (by omega), ih hxs hubus (by simpa using hlen),
        if_neg (by omega)]

theorem predOf_none_nonpos : ∀ {d ub : DV}, d.length = ub.length →
    predOf d ub = none → ∀ x ∈ d, x ≤ 0 := by
  intro d
  induction d with
  | nil => intro ub _ _ x hx; simp at hx
  | cons x xs ih =>
    intro ub hlen h z hz
    cases ub with
    | nil => simp at hlen
    | cons u us =>
      rw [predOf] at h
      by_cases hux : u < x
      · rw [if_pos hux] at h; cases h
      · rw [if_neg hux] at h
        cases hrec : predOf xs us with
        | some rest => rw [hrec] at h; cases h
        | none =>
          rw [hrec] at h
          by_cases hx0 : 0 < x
          · rw [if_pos hx0] at h; cases h
          · rw [if_neg hx0] at h
            rcases List.mem_cons.mp hz with rfl | hz
            · omega
            · exact ih (by simpa using hlen) hrec z hz

/-- Inside the box `[0, d]` the predecessor exists for every nonzero
vector and decreases the mixed-radix value by exactly one. -/
theorem predOf_box {e d : DV} (hnn : NN e) (hle : CLe e d) (hd : NN d)
    (hz : isZero e = false) :
    ∃ e1, predOf e d = some e1 ∧ nuVal e1 d + 1 = nuVal e d ∧ NN e1 ∧
      CLe e1 d := by
  induction hle with
  | nil => simp [isZero] at hz
  | @cons x y xs ys hxy htl ih =>
    have hx : 0 ≤ x := hnn x (List.mem_cons_self x xs)
    have hxs : NN xs := fun z hz => hnn z (List.mem_cons_of_mem _ hz)
    have hy : 0 ≤ y := hd y (List.mem_cons_self y ys)
    have hys : NN ys := fun z hz => hd z (List.mem_cons_of_mem _ hz)
    by_cases hxsz : isZero xs = true
    · have hxs0 : ∀ z ∈ xs, z = 0 := isZero_iff.mp hxsz
      have hnone : predOf xs ys = none := predOf_zero hxs0 hys htl.length_eq
      have hx0 : 0 < x := by
        have hcon : ¬ (∀ z ∈ (x :: xs), z = (0 : ℤ)) := by
          intro hall
          rw [isZero_iff.mpr hall] at hz
          exact Bool.noConfusion hz
        by_contra hxc
        exact hcon (fun z hzmem => by
          rcases List.mem_cons.mp hzmem with rfl | hzz
          · omega
          · exact hxs0 z hzz)
      refine ⟨(x - 1) :: ys, ?_, ?_, ?_, ?_⟩
      · rw [predOf, if_neg (by omega), hnone, if_pos hx0]
      · rw [nuVal_cons, nuVal_cons, nuVal_eq_zero_of_zero hxs0]
        have hself := nuVal_self ys
        have hton : (x - 1).toNat + 1 = x.toNat := by omega
        have hmul : ((x - 1).toNat + 1) * boxSize ys = x.toNat * boxSize ys := by
          rw [hton]
        rw [Nat.succ_mul] at hmul
        omega
      · intro z hzm
        rcases List.mem_cons.mp hzm with rfl | hzz
        · omega
        · exact hys z hzz
      · exact List.Forall₂.cons (by omega) (CLe.refl ys)
    · obtain ⟨e1, he1, hnu, hnn1, hle1⟩ :=
        ih hxs hys (by simpa using hxsz)
      refine ⟨x :: e1, ?_, ?_, ?_, List.Forall₂.cons hxy hle1⟩
      · rw [predOf, if_neg (by omega), he1]
      · rw [nuVal_cons, nuVal_cons]; omega
      · intro z hzm
        rcases List.mem_cons.mp hzm with rfl | hzz
        · exact hx
        · exact hnn1 z hzz

theorem predChain_some {b d e1 : DV} (n : ℕ) (h : predOf b d = some e1) :
    predChain (n + 1) b d =
      if isZero e1 then [e1] else e1 :: predChain n e1 d := by
  rw [predChain, h]

theorem predChain_none {b d : DV} (n : ℕ) (h : predOf b d = none) :
    predChain (n + 1) b d = [] := by
  rw [predChain, h]

theorem predChain_elem : ∀ (fuel : ℕ) {b d v : DV},
    v ∈ predChain fuel b d → lexLt v b = true ∧ CLe v d := by
  intro fuel
  induction fuel with
  | zero => intro b d v h; simp [predChain] at h
  | succ n ih =>
    intro b d v h
    cases he : predOf b d with
    | none => rw [predChain_none _ he] at h; simp at h
    | some e1 =>
      rw [predChain_some _ he] at h
      by_cases hz : isZero e1 = true
      · rw [if_pos hz] at h
        simp at h; subst h
        exact ⟨predOf_lexLt he, predOf_le_ub he⟩
      · rw [if_neg hz] at h
        rcases List.mem_cons.mp h with rfl | h
        · exact ⟨predOf_lexLt he, predOf_le_ub he⟩
        · obtain ⟨h1, h2⟩ := ih h
          exact ⟨lexLt_trans h1 (predOf_lexLt he), h2⟩

theorem predChain_nn : ∀ (fuel : ℕ) {b d v : DV}, NN b → NN d →
    v ∈ predChain fuel b d → NN v := by
  intro fuel
  induction fuel with
  | zero => intro b d v _ _ h; simp [predChain] at h
  | succ n ih =>
    intro b d v hb hd h
    cases he : predOf b d with
    | none => rw [predChain_none _ he] at h; simp at h
    | some e1 =>
      rw [predChain_some _ he] at h
      have hnn1 : NN e1 := predOf_nn hb hd he
      by_cases hz : isZero e1 = true
      · rw [if_pos hz] at h; simp at h; subst h; exact hnn1
      · rw [if_neg hz] at h
        rcases List.mem_cons.mp h with rfl | h
        · exact hnn1
        · exact ih hnn1 hd h

/-- Inside the box the descent chain is complete: it has exactly
`nuVal e d` elements and ends at the zero vector. -/
theorem predChain_complete : ∀ (fuel : ℕ) {e d : DV}, NN e → CLe e d →
    NN d → isZero e = false → nuVal e d < fuel →
    zeroV d.length ∈ predChain fuel e d ∧
      (predChain fuel e d).length = nuVal e d := by
  intro fuel
  induction fuel with
  | zero => intro e d _ _ _ _ h; omega
  | succ n ih =>
    intro e d hnn hle hd hz hfuel
    obtain ⟨e1, he, hnu, hnn1, hle1⟩ := predOf_box hnn hle hd hz
    rw [predChain_some _ he]
    by_cases hz1 : isZero e1 = true
    · rw [if_pos hz1]
      have hlen1 : e1.length = d.length := hle1.len
      have he1z : e1 = zeroV d.length := by
        rw [← hlen1]; exact eq_zeroV_of_isZero hz1
      have hnu1 : nuVal e1 d = 0 :=
        nuVal_eq_zero_of_zero (isZero_iff.mp hz1)
      refine ⟨by rw [← he1z]; exact List.mem_singleton_self e1, ?_⟩
      simp; omega
    · rw [if_neg hz1]
      have hstep : nuVal e1 d < n := by omega
      obtain ⟨hmem, hlen⟩ := ih hnn1 hle1 hd (by simpa using hz1) hstep
      refine ⟨List.mem_cons_of_mem _ hmem, ?_⟩
      rw [List.length_cons, hlen]; omega

theorem sc_summandsBelow_eq (r : ℕ) (d b : DV) :
    (sc r).summandsBelow d b =
      if isZero b then [] else predChain (boxFuel d) b d := rfl

theorem sc_summands_lex {r : ℕ} {d b e : DV}
    (h : e ∈ (sc r).summandsBelow d b) : lexLt e b = true := by
  rw [sc_summandsBelow_eq] at h
  by_cases hz : isZero b = true
  · rw [if_pos hz] at h; simp at h
  · rw [if_neg hz] at h; exact (predChain_elem _ h).1

theorem sc_summands_cle {r : ℕ} {d b e : DV}
    (h : e ∈ (sc r).summandsBelow d b) : CLe e d := by
  rw [sc_summandsBelow_eq] at h
  by_cases hz : isZero b = true
  · rw [if_pos hz] at h; simp at h
  · rw [if_neg hz] at h; exact (predChain_elem _ h).2

theorem sc_summands_len {r : ℕ} {d b e : DV}
    (h : e ∈ (sc r).summandsBelow d b) : e.length = d.length :=
  (sc_summands_cle h).len

theorem sc_summands_nn {r : ℕ} {d b e : DV} (hd : NN d) (hb : NN b)
    (h : e ∈ (sc r).summandsBelow d b) : NN e := by
  rw [sc_summandsBelow_eq] at h
  by_cases hz : isZero b = true
  · rw [if_pos hz] at h; simp at h
  · rw [if_neg hz] at h; exact predChain_nn _ hb hd h

theorem sc_summands_zero_mem {r : ℕ} {d b : DV} (hd : NN d) (hb : NN b)
    (hlen : b.length = d.length) (hbz : isZero b = false) :
    zeroV d.length ∈ (sc r).summandsBelow d b := by
  rw [sc_summandsBelow_eq, if_neg (by simp [hbz])]
  have hfuel2 : boxFuel d = (boxFuel d - 1) + 1 := by
    simp only [boxFuel]; omega
  rw [hfuel2]
  cases he : predOf b d with
  | none =>
    have hnp := predOf_none_nonpos hlen he
    have : ∀ x ∈ b, x = 0 := fun x hx => le_antisymm (hnp x hx) (hb x hx)
    rw [isZero_iff.mpr this] at hbz
    exact Bool.noConfusion hbz
  | some e1 =>
    rw [predChain_some _ he]
    have hnn1 : NN e1 := predOf_nn hb hd he
    have hle1 : CLe e1 d := predOf_le_ub he
    by_cases hz1 : isZero e1 = true
    · rw [if_pos hz1]
      have he1z : e1 = zeroV d.length := by
        rw [← hle1.len]; exact eq_zeroV_of_isZero hz1
      rw [← he1z]; exact List.mem_singleton_self e1
    · rw [if_neg hz1]
      have hnu : nuVal e1 d < boxFuel d - 1 := by
        have h1 := nuVal_lt_boxSize hnn1 hle1
        simp only [boxFuel, boxSize] at h1 ⊢
        omega
      have hcompl := predChain_complete (boxFuel d - 1) hnn1 hle1 hd
        (by simpa using hz1) hnu
      exact List.mem_cons_of_mem _ hcompl.1

/-- The full descent chain below `d` itself enumerates the whole box
except `d`: it has `boxSize d - 1` elements. -/
theorem sc_summandsBelow_self_length {r : ℕ} {d : DV} (hd : NN d)
    (hdz : isZero d = false) :
    ((sc r).summandsBelow d d).length = boxSize d - 1 := by
  rw [sc_summandsBelow_eq, if_neg (by simp [hdz])]
  have hnu : nuVal d d < boxFuel d := by
    have := nuVal_self d
    simp only [boxFuel, boxSize] at this ⊢
    omega
  have hcompl := predChain_complete (boxFuel d) hd (CLe.refl d) hd hdz hnu
  have := nuVal_self d
  omega

theorem vadd_length (d e : DV) : (vadd d e).length = min d.length e.length := by
  simp [vadd]

theorem vsub_length (d e : DV) : (vsub d e).length = min d.length e.length := by
  simp [vsub]

theorem smul_length (m : ℤ) (d : DV) : (smul m d).length = d.length := by
  simp [smul]

theorem smul_one (d : DV) : smul 1 d = d := by
  simp [smul]

theorem vadd_zero_right : ∀ {e : DV} {n : ℕ}, e.length = n →
    vadd e (zeroV n) = e := by
  intro e
  induction e with
  | nil => intro n h; subst h; rfl
  | cons x xs ih =>
    intro n h
    cases n with
    | zero => simp at h
    | succ m =>
      simp only [List.length_cons, Nat.succ.injEq] at h
      simp only [zeroV, List.replicate_succ, vadd, List.zipWith_cons_cons,
        add_zero]
      rw [show List.zipWith (fun x y => x + y) xs (List.replicate m 0) =
        vadd xs (zeroV m) from rfl, ih h]

theorem vadd_smul_one : ∀ {e d : DV}, e.length = d.length →
    vadd (smul 1 e) (vsub d e) = d := by
  intro e
  induction e with
  | nil => intro d h; cases d with
    | nil => rfl
    | cons y ys => simp at h
  | cons x xs ih =>
    intro d h
    cases d with
    | nil => simp at h
    | cons y ys =>
      simp only [List.length_cons, Nat.succ.injEq] at h
      simp only [smul, vsub, vadd, List.map_cons, List.zipWith_cons_cons]
      rw [show List.zipWith (fun a b => a + b) (List.map (fun a => 1 * a) xs)
        (List.zipWith (fun a b => a - b) ys xs) =
        vadd (smul 1 xs) (vsub ys xs) from rfl, ih h]
      congr 1
      ring

theorem vadd_smul_succ : ∀ {e r : DV} (c : ℤ), e.length = r.length →
    vadd (smul (c + 1) e) (vsub r e) = vadd (smul c e) r := by
  intro e
  induction e with
  | nil => intro r c h; cases r with
    | nil => rfl
    | cons y ys => simp at h
  | cons x xs ih =>
    intro r c h
    cases r with
    | nil => simp at h
    | cons y ys =>
      simp only [List.length_cons, Nat.succ.injEq] at h
      simp only [smul, vsub, vadd, List.map_cons, List.zipWith_cons_cons]
      rw [show List.zipWith (fun a b => a + b) (List.map (fun a => (c + 1) * a) xs)
        (List.zipWith (fun a b => a - b) ys xs) =
        vadd (smul (c + 1) xs) (vsub ys xs) from rfl, ih c h]
      congr 1
      ring

theorem vsub_cle : ∀ {e d : DV}, e.length = d.length → NN e →
    CLe (vsub d e) d := by
  intro e
  induction e with
  | nil => intro d h _; cases d with
    | nil => exact List.Forall₂.nil
    | cons y ys => simp at h
  | cons x xs ih =>
    intro d h hnn
    cases d with
    | nil => simp at h
    | cons y ys =>
      simp only [List.length_cons, Nat.succ.injEq] at h
      have hx : 0 ≤ x := hnn x (List.mem_cons_self x xs)
      have hxs : NN xs := fun z hz => hnn z (List.mem_cons_of_mem _ hz)
      exact List.Forall₂.cons (show y - x ≤ y by omega) (ih h hxs)

/-- The total dimension vector of a partition: the sum of
`multiplicity · summand` over its entries. -/
def psum (n : ℕ) (p : Partition) : DV :=
  p.foldr (fun em acc => vadd (smul (em.2 : ℤ) em.1) acc) (zeroV n)

theorem psum_nil (n : ℕ) : psum n [] = zeroV n := rfl

theorem psum_cons (n : ℕ) (e : DV) (m : ℕ) (p : Partition) :
    psum n ((e, m) :: p) = vadd (smul (m : ℤ) e) (psum n p) := rfl

theorem find?_eq_none_of_keys_ne {p : Partition} {e : DV}
    (h : ∀ x ∈ p, x.1 ≠ e) : p.find? (fun x => x.1 == e) = none := by
  rw [List.find?_eq_none]
  intro x hx
  simpa using h x hx

theorem dictInsert_eq_cons {p : Partition} {e : DV} {q : ℕ}
    (h : ∀ x ∈ p, x.1 ≠ e) : dictInsert e q p = (e, q) :: p := by
  rw [dictInsert, find?_eq_none_of_keys_ne h]

/-- Invariant of a partition emitted by `_partitions(d, below)`: it starts
with a nonzero summand of `d` below `below`, its entries have positive
multiplicities, nonzero keys of the right length that are all
lexicographically below `below`, and its total is exactly `d`. -/
def PartsOk (c : Cone) (d b : DV) (p : Partition) : Prop :=
  (∃ e m p2, p = (e, m) :: p2 ∧ e ∈ c.summandsBelow d b ∧
    isZero e = false) ∧
  psum d.length p = d ∧
  (∀ x ∈ p, lexLt x.1 b = true ∧ x.1.length = d.length ∧
    isZero x.1 = false ∧ 1 ≤ x.2)

/-- Invariant of a partition emitted by one run of the multiplicity loop
for the summand `e`. -/
def LoopOk (c : Cone) (d e : DV) (q : ℕ) (p : Partition) : Prop :=
  (∃ m p2, p = (e, m) :: p2 ∧ q ≤ m ∧
    (∀ x ∈ p2, lexLt x.1 e = true ∧ x.1.length = d.length ∧
      isZero x.1 = false ∧ 1 ≤ x.2)) ∧
  psum d.length p = d

theorem partsOk_joint (c : Cone)
    (hlex : ∀ d b e, e ∈ c.summandsBelow d b → lexLt e b = true)
    (hlen : ∀ d b e, e ∈ c.summandsBelow d b → e.length = d.length) :
    ∀ fuel : ℕ,
      (∀ d b p, p ∈ partsAux c fuel d b → PartsOk c d b p) ∧
      (∀ (d e : DV) (q : ℕ) (r : DV) (p : Partition),
        e.length = d.length → r.length = d.length →
        isZero e = false → 1 ≤ q → vadd (smul (q : ℤ) e) r = d →
        p ∈ partLoop c fuel d e q r → LoopOk c d e q p) := by
  intro fuel
  induction fuel with
  | zero =>
    constructor
    · intro d b p h; simp [partsAux] at h
    · intro d e q r p _ _ _ _ _ h; simp [partLoop] at h
  | succ n ih =>
    obtain ⟨ihAux, ihLoop⟩ := ih
    constructor
    · intro d b p h
      rw [partsAux] at h
      rw [List.mem_flatMap] at h
      obtain ⟨e, hesb, hp⟩ := h
      by_cases hez : isZero e = true
      · rw [if_pos hez] at hp; simp at hp
      · rw [if_neg hez] at hp
        have hez' : isZero e = false := by simpa using hez
        have helen : e.length = d.length := hlen d b e hesb
        have hinv : vadd (smul ((1 : ℕ) : ℤ) e) (vsub d e) = d := by
          simpa using vadd_smul_one helen
        obtain ⟨⟨m, p2, hps, hqm, hp2⟩, hsum⟩ :=
          ihLoop d e 1 (vsub d e) p helen
            (by rw [vsub_length, helen]; omega) hez' le_rfl hinv hp
        refine ⟨⟨e, m, p2, hps, hesb, hez'⟩, hsum, ?_⟩
        intro x hx
        rw [hps] at hx
        rcases List.mem_cons.mp hx with rfl | hx2
        · exact ⟨hlex d b e hesb, helen, hez', by omega⟩
        · obtain ⟨h1, h2, h3, h4⟩ := hp2 x hx2
          exact ⟨lexLt_trans h1 (hlex d b e hesb), h2, h3, h4⟩
    · intro d e q r p helen hrlen hez hq hinv h
      rw [partLoop] at h
      by_cases hmem : c.mem r = true
      · rw [if_pos hmem] at h
        rcases List.mem_append.mp h with h1 | h2
        · by_cases hrz : isZero r = true
          · rw [if_pos hrz] at h1
            simp at h1
            subst h1
            have hrzero : r = zeroV d.length := by
              rw [← hrlen]; exact eq_zeroV_of_isZero hrz
            refine ⟨⟨q, [], rfl, le_rfl, by simp⟩, ?_⟩
            rw [psum_cons, psum_nil,
              vadd_zero_right (by rw [smul_length, helen])]
            rw [hrzero] at hinv
            rw [← hinv, vadd_zero_right (by rw [smul_length, helen])]
          · rw [if_neg hrz] at h1
            rw [List.mem_map] at h1
            obtain ⟨p0, hp0, hpd⟩ := h1
            obtain ⟨⟨e0, m0, p02, hp0s, he0sb, he0z⟩, hsum0, hkeys0⟩ :=
              ihAux r e p0 hp0
            have hkeysne : ∀ x ∈ p0, x.1 ≠ e := by
              intro x hx
              exact lexLt_ne ((hkeys0 x hx).1)
            rw [dictInsert_eq_cons hkeysne] at hpd
            subst hpd
            refine ⟨⟨q, p0, rfl, le_rfl, ?_⟩, ?_⟩
            · intro x hx
              obtain ⟨h1, h2, h3, h4⟩ := hkeys0 x hx
              exact ⟨h1, by rw [h2, hrlen], h3, h4⟩
            · rw [psum_cons]
              have hps : psum d.length p0 = r := by
                rw [← hrlen]; exact hsum0
              rw [hps, hinv]
        · have hinv2 : vadd (smul ((q + 1 : ℕ) : ℤ) e) (vsub r e) = d := by
            push_cast
            rw [vadd_smul_succ _ (by omega), hinv]
          obtain ⟨⟨m, p2, hps, hqm, hp2⟩, hsum⟩ :=
            ihLoop d e (q + 1) (vsub r e) p helen
              (by rw [vsub_length]; omega) hez (by omega) hinv2 h2
          exact ⟨⟨m, p2, hps, by omega, hp2⟩, hsum⟩
      · rw [if_neg hmem] at h
        simp at h

theorem partsAux_psum {c : Cone}
    (hlex : ∀ d b e, e ∈ c.summandsBelow d b → lexLt e b = true)
    (hlen : ∀ d b e, e ∈ c.summandsBelow d b → e.length = d.length)
    {fuel : ℕ} {d b : DV} {p : Partition} (h : p ∈ partsAux c fuel d b) :
    psum d.length p = d :=
  ((partsOk_joint c hlex hlen fuel).1 d b p h).2.1

theorem partsAux_keys {c : Cone}
    (hlex : ∀ d b e, e ∈ c.summandsBelow d b → lexLt e b = true)
    (hlen : ∀ d b e, e ∈ c.summandsBelow d b → e.length = d.length)
    {fuel : ℕ} {d b : DV} {p : Partition} (h : p ∈ partsAux c fuel d b) :
    ∀ x ∈ p, lexLt x.1 b = true ∧ x.1.length = d.length ∧
      isZero x.1 = false ∧ 1 ≤ x.2 :=
  ((partsOk_joint c hlex hlen fuel).1 d b p h).2.2

theorem partsAux_head {c : Cone}
    (hlex : ∀ d b e, e ∈ c.summandsBelow d b → lexLt e b = true)
    (hlen : ∀ d b e, e ∈ c.summandsBelow d b → e.length = d.length)
    {fuel : ℕ} {d b : DV} {p : Partition} (h : p ∈ partsAux c fuel d b) :
    ∃ e m p2, p = (e, m) :: p2 ∧ e ∈ c.summandsBelow d b ∧
      isZero e = false :=
  ((partsOk_joint c hlex hlen fuel).1 d b p h).1

theorem sc_nonzero_lex : ∀ {d : DV}, NN d → isZero d = false →
    lexLt (zeroV d.length) d = true := by
  intro d
  induction d with
  | nil => intro _ h; simp [isZero] at h
  | cons x xs ih =>
    intro hnn hz
    have hx : 0 ≤ x := hnn x (List.mem_cons_self x xs)
    have hxs : NN xs := fun z hz => hnn z (List.mem_cons_of_mem _ hz)
    rw [List.length_cons, zeroV, List.replicate_succ, lexLt_cons]
    by_cases hx0 : (0 : ℤ) = x
    · rw [if_pos hx0]
      have hz2 : isZero xs = false := by
        by_contra hcon
        have hxz : isZero xs = true := by simpa using hcon
        have : isZero (x :: xs) = true := by
          rw [isZero_iff]
          intro z hzm
          rcases List.mem_cons.mp hzm with rfl | hzz
          · omega
          · exact isZero_iff.mp hxz z hzz
        rw [this] at hz; exact Bool.noConfusion hz
      exact ih hxs hz2
    · rw [if_neg hx0]
      exact decide_eq_true (by omega)

theorem sc_hlex (r : ℕ) :
    ∀ d b e, e ∈ (sc r).summandsBelow d b → lexLt e b = true :=
  fun _ _ _ h => sc_summands_lex h

theorem sc_hlen (r : ℕ) :
    ∀ d b e, e ∈ (sc r).summandsBelow d b → e.length = d.length :=
  fun _ _ _ h => sc_summands_len h

theorem sc_mem_iff {r : ℕ} {v : DV} :
    (sc r).mem v = true ↔ v.length = r ∧ NN v := by
  simp [sc, NN, List.all_eq_true]

theorem sc_hzero (r : ℕ) :
    ∀ d, (sc r).mem d = true → lexLt (zeroV d.length) d = true →
      zeroV d.length ∈ (sc r).summandsBelow d d := by
  intro d hd hlt
  obtain ⟨hlen, hnn⟩ := sc_mem_iff.mp hd
  have hdz : isZero d = false := by
    by_contra hcon
    have hz : isZero d = true := by simpa using hcon
    have hdeq : d = zeroV d.length := eq_zeroV_of_isZero hz
    nth_rewrite 2 [hdeq] at hlt
    rw [lexLt_irrefl] at hlt
    exact Bool.noConfusion hlt
  exact sc_summands_zero_mem hnn hnn rfl hdz

theorem sc_hpos (r : ℕ) :
    ∀ d, (sc r).mem d = true →
      isZero d = true ∨ lexLt (zeroV d.length) d = true := by
  intro d hd
  obtain ⟨_, hnn⟩ := sc_mem_iff.mp hd
  by_cases hz : isZero d = true
  · exact Or.inl hz
  · exact Or.inr (sc_nonzero_lex hnn (by simpa using hz))

/-- C5: for every cone satisfying the documented contract of its
`_summands` primitive (summands are lexicographically below `below` and
keep the length), and every member `d`, each partition emitted by
`partitions(d)` has positive multiplicities and the sum of
`summand · multiplicity` over its entries reconstructs `d` exactly. -/
theorem C5_partitions_reconstruct (c : Cone)
    (hlex : ∀ d b e, e ∈ c.summandsBelow d b → lexLt e b = true)
    (hlen : ∀ d b e, e ∈ c.summandsBelow d b → e.length = d.length)
    (fuel : ℕ) (d : DV) (hd : c.mem d = true) (hrank : d.length = c.rank) :
    ∀ p ∈ conePartitions c fuel d,
      psum d.length p = d ∧ ∀ x ∈ p, 1 ≤ x.2 := by
  intro p hp
  rcases List.mem_cons.mp hp with rfl | hp2
  · constructor
    · rw [psum_cons, psum_nil,
        vadd_zero_right (by rw [smul_length]), Nat.cast_one, smul_one]
    · intro x hx; simp at hx; simp [hx]
  · exact ⟨partsAux_psum hlex hlen hp2,
      fun x hx => (partsAux_keys hlex hlen hp2 x hx).2.2.2⟩

/-- Witness for C5 at the standard cone of rank 2: the partition
`{(1,1): 1, (0,1): 1}` of `(1,2)` indeed sums back to `(1,2)`. -/
theorem C5_witness :
    psum 2 [([1, 1], 1), ([0, 1], 1)] = ([1, 2] : DV) :=
  (C5_partitions_reconstruct (sc 2) (sc_hlex 2) (sc_hlen 2) 20 [1, 2]
    (by decide) (by decide) [([1, 1], 1), ([0, 1], 1)] (by decide)).1

/-- C6: for every cone whose `_summands` honours the documented contract
(yielding the zero vector whenever it is below the bound, with cone
members dominating the zero vector), `summands(d)` contains `d` and the
zero vector; and concretely, for the standard cone of rank 2,
`summands((1,1))` is exactly `[(1,1), (1,0), (0,1), (0,0)]` and
`partitions((1,2))` is exactly the four documented partitions. -/
theorem C6_summands_contents :
    (∀ (c : Cone),
      (∀ d, c.mem d = true → lexLt (zeroV d.length) d = true →
        zeroV d.length ∈ c.summandsBelow d d) →
      (∀ d, c.mem d = true →
        isZero d = true ∨ lexLt (zeroV d.length) d = true) →
      ∀ d, c.mem d = true →
        d ∈ c.summands d ∧ zeroV d.length ∈ c.summands d) ∧
    (sc 2).summands [1, 1] = [[1, 1], [1, 0], [0, 1], [0, 0]] ∧
    conePartitions (sc 2) 20 [1, 2] =
      [[([1, 2], 1)], [([1, 1], 1), ([0, 1], 1)],
       [([1, 0], 1), ([0, 2], 1)], [([1, 0], 1), ([0, 1], 2)]] := by
  refine ⟨?_, by decide, by decide⟩
  intro c hzero hpos d hd
  refine ⟨List.mem_cons_self _ _, ?_⟩
  rcases hpos d hd with hz | hlt
  · have : zeroV d.length = d := (eq_zeroV_of_isZero hz).symm
    rw [this]
    exact List.mem_cons_self _ _
  · exact List.mem_cons_of_mem _ (hzero d hd hlt)

/-- Witness for C6 at the standard cone of rank 2 and `d = (1,1)`. -/
theorem C6_witness :
    ([1, 1] : DV) ∈ (sc 2).summands [1, 1] ∧
      zeroV 2 ∈ (sc 2).summands [1, 1] :=
  C6_summands_contents.1 (sc 2) (sc_hzero 2) (sc_hpos 2) [1, 1] (by decide)

/-- Source `ScalarProduct.__call__` / `Pairing.__call__`: the sparse
bilinear form `sum(d[i] * e[j] * coeff)` over the coefficient entries
(indices are in range in every use below). -/
def bilin (coeff : List ((ℕ × ℕ) × ℤ)) (d e : DV) : ℤ :=
  (coeff.map (fun kv => d.getD kv.1.1 0 * e.getD kv.1.2 0 * kv.2)).sum

/-- Source `StabilityCondition` (`stability_condition.py`): the real and
imaginary rows of the central charge and the Euler form `quiver.chi` of
the underlying quiver (an external input of this module). -/
structure StabCond where
  real : List ℤ
  imag : List ℤ
  chi : DV → DV → ℤ

/-- Source `StabilityCondition._real`. -/
def StabCond.realPart (st : StabCond) (d : DV) : ℤ :=
  (List.zipWith (fun a x => a * x) st.real d).sum

/-- Source `StabilityCondition._imag`. -/
def StabCond.imagPart (st : StabCond) (d : DV) : ℤ :=
  (List.zipWith (fun a x => a * x) st.imag d).sum

/-- Source `StabilityCondition.__call__`: the Calabi-Yau pairing
`chi(d, e) - chi(e, d)`. -/
def cyPair (st : StabCond) (d e : DV) : ℤ := st.chi d e - st.chi e d

/-- Source `StabilityCondition.colinear`. -/
def colinear (st : StabCond) (d e : DV) : Bool :=
  st.realPart d * st.imagPart e == st.realPart e * st.imagPart d

/-- Class of a point for the `atan2` order: `cmath.phase` maps the
punctured plane to `(-pi, pi]`, negative imaginary part first, then the
nonnegative real axis, the upper half plane, and the negative real
axis. -/
def angClass (z : ℤ × ℤ) : ℕ :=
  if z.2 < 0 then 0
  else if z.2 = 0 ∧ 0 ≤ z.1 then 1
  else if 0 < z.2 then 2
  else 3

/-- Exact comparison of `cmath.phase` values of integer points (the
float comparison `self.phase(d) < self.phase(e)` in exact real
semantics): compare the `atan2` classes, and inside a half plane compare
by the cross product. -/
def angLt (z w : ℤ × ℤ) : Bool :=
  decide (angClass z < angClass w) ||
    (decide (angClass z = angClass w) &&
      decide (0 < z.1 * w.2 - z.2 * w.1))

/-- Source `self.phase(d) < self.phase(p)` in
`StabilityCondition.hn_partitions`. -/
def phaseLt (st : StabCond) (d e : DV) : Bool :=
  angLt (st.realPart d, st.imagPart d) (st.realPart e, st.imagPart e)

/-- Source line 104 of `stability_condition.py`: the new exponent of an
extended HN type,
`exponent + sum((-1) ** (phase(e) < phase(p)) * self(e, p) for p in part)`. -/
def hnExtExponent (st : StabCond) (e : DV) (part : List DV) (ex : ℤ) : ℤ :=
  ex + (part.map (fun p =>
    (if phaseLt st e p then (-1 : ℤ) else 1) * cyPair st e p)).sum

mutual

/-- Source `StabilityCondition.hn_partitions(d, k)`: guard the zero
cases, take the first candidate `e = k.pred(upper_bound=d)` (the legacy
`DimensionVector.pred` is modelled by `_pred_of` as in spec section 4.4)
and run the capped loop. -/
def hnAux (st : StabCond) : ℕ → DV → DV → List (List DV × ℤ)
  | 0, _, _ => []
  | fuel + 1, d, k =>
    if isZero k then []
    else
      match predOf k d with
      | none => []
      | some e => if isZero e then [] else hnLoop st fuel d e (vsub d e) 0

/-- Source `while i < 10_000` loop of `hn_partitions`: yield the
singleton type when `r` is zero, otherwise extend every recursively
produced type whose pieces are all non-collinear with `e`; then step `e`
to its predecessor. -/
def hnLoop (st : StabCond) : ℕ → DV → DV → DV → ℕ → List (List DV × ℤ)
  | 0, _, _, _, _ => []
  | fuel + 1, d, e, r, i =>
    if i < 10000 then
      (if isZero r then [([e], 0)]
       else (hnAux st fuel r e).filterMap (fun pe =>
          if pe.1.any (fun p => colinear st e p) then none
          else some (e :: pe.1, hnExtExponent st e pe.1 pe.2))) ++
      (match predOf e d with
       | none => []
       | some e2 =>
         if isZero e2 then [] else hnLoop st fuel d e2 (vsub d e2) (i + 1))
    else []

end

/-- Modelled from the spec (section 4.1) and the commented-out
`DimensionVector.__floordiv__`: `divmod(d, e)` with `q` the minimum of
the floor quotients over the nonzero coordinates of `e` and
`r = d - q*e`. -/
def vdivmod (d e : DV) : ℤ × DV :=
  let quots := ((d.zip e).filter (fun xy => xy.2 ≠ 0)).map
    (fun xy => Int.fdiv xy.1 xy.2)
  let q := match quots with
    | [] => 0
    | x :: xs => xs.foldl min x
  (q, vsub d (smul q e))

mutual

/-- Source `StabilityCondition.partitions(d, k)` (lines 51-81): the
collinear partition enumerator with the same 10,000-iteration cap. -/
def scPartAux (st : StabCond) : ℕ → DV → DV → List (List (DV × ℤ))
  | 0, _, _ => []
  | fuel + 1, d, k =>
    if isZero k then []
    else
      match predOf k d with
      | none => []
      | some e =>
        if isZero e then []
        else scPartLoop st fuel d e (vdivmod d e).1 (vdivmod d e).2 0

/-- Source `while i < 10_000` loop of `StabilityCondition.partitions`. -/
def scPartLoop (st : StabCond) :
    ℕ → DV → DV → ℤ → DV → ℕ → List (List (DV × ℤ))
  | 0, _, _, _, _, _ => []
  | fuel + 1, d, e, q, r, i =>
    if i < 10000 then
      (if colinear st d e then
        (if isZero r then [[(e, q)]]
         else (scPartAux st fuel r e).map (fun p => (e, q) :: p))
       else []) ++
      (if 1 < q then scPartLoop st fuel d e (q - 1) (vadd r e) (i + 1)
       else
        match predOf e d with
        | none => []
        | some e2 =>
          if isZero e2 then []
          else scPartLoop st fuel d e2 (vdivmod d e2).1 (vdivmod d e2).2
            (i + 1))
    else []

end

/-- Euler form of the quiver with three... two vertices and one arrow
`0 -> 1` (`arrow_matrix = {(0,1): 1}`), as `Quiver.__init__` builds it:
the unit matrix minus the arrow matrix. -/
def hnChi : List ((ℕ × ℕ) × ℤ) := [((0, 0), 1), ((1, 1), 1), ((0, 1), -1)]

/-- Stability condition of the C4 counterexample: `real = [0, 1]`,
`imag = [1, 1]` over the one-arrow quiver. -/
def hnStab : StabCond := ⟨[0, 1], [1, 1], bilin hnChi⟩

/-- Membership-based equality of the piece sets yielded by
`hn_partitions` (Python yields `set` objects). -/
def setEq (a b : List DV) : Bool :=
  a.all (fun x => b.contains x) && b.all (fun x => a.contains x)

/-- C4 (amended): every HN type produced by extending a recursively
returned pair `(pieces, exponent)` with a new piece `e` carries the new
exponent obtained by ADDING to the old exponent, for each piece `p`, the
term `pairing(p, e)` when `phase(e) < phase(p)` and the term
`pairing(e, p)` otherwise (the code computes
`exponent += sum((-1) ** (phase(e) < phase(p)) * self(e, p))`, and the
Calabi-Yau pairing is antisymmetric). -/
theorem C4_hn_exponent_adds (st : StabCond) (e : DV) (part : List DV)
    (ex : ℤ) :
    hnExtExponent st e part ex =
      ex + (part.map (fun p =>
        if phaseLt st e p then cyPair st p e else cyPair st e p)).sum := by
  have hmt : ∀ p : DV,
      (if phaseLt st e p then (-1 : ℤ) else 1) * cyPair st e p =
        if phaseLt st e p then cyPair st p e else cyPair st e p := by
    intro p
    by_cases hb : phaseLt st e p = true
    · rw [if_pos hb, if_pos hb]
      unfold cyPair
      ring
    · rw [if_neg hb, if_neg hb]
      ring
  unfold hnExtExponent
  rw [show (fun p => (if phaseLt st e p then (-1 : ℤ) else 1) *
      cyPair st e p) =
    (fun p => if phaseLt st e p then cyPair st p e else cyPair st e p)
    from funext hmt]

/-- C4 (counterexample): on the one-arrow quiver with
`real = [0, 1]`, `imag = [1, 1]`, `hn_partitions((1,1))` extends the
recursively returned pair `({(0,1)}, 0)` with the piece `(1,0)` and
yields the exponent `-1`, while the claimed subtraction formula demands
`1`; the piece set `{(1,0), (0,1)}` never appears with exponent `1`. -/
theorem C4_counterexample :
    hnAux hnStab 5 [1, 1] [2, 2] =
      [([[1, 1]], 0), ([[1, 0], [0, 1]], -1)] ∧
    ([[0, 1]], (0 : ℤ)) ∈ hnAux hnStab 4 [0, 1] [1, 0] ∧
    ((0 : ℤ) - (if phaseLt hnStab [1, 0] [0, 1] then
        cyPair hnStab [0, 1] [1, 0]
      else cyPair hnStab [1, 0] [0, 1])) = 1 ∧
    ((hnAux hnStab 5 [1, 1] [2, 2]).all
      (fun pr => !(setEq pr.1 [[1, 0], [0, 1]] && pr.2 == 1))) = true :=
  ⟨by decide, by decide, by decide, by decide⟩

/-- Iteration counter for the `while r in self` loop of
`Cone._partitions` run for a single summand `e`: one step per loop body
executed. -/
def whileSteps (c : Cone) : ℕ → DV → DV → ℕ
  | 0, _, _ => 0
  | fuel + 1, e, r =>
    if c.mem r then 1 + whileSteps c fuel e (vsub r e) else 0

/-- Number of loop iterations a single call of `Cone._partitions(d,
below)` performs (not counting recursive calls). -/
def conePartCallSteps (c : Cone) (fuel : ℕ) (d below : DV) : ℕ :=
  (((c.summandsBelow d below).filter (fun e => !(isZero e))).map
    (fun e => whileSteps c fuel e (vsub d e))).sum

theorem vsub_nn : ∀ {e d : DV}, CLe e d → NN (vsub d e) := by
  intro e d h
  induction h with
  | nil => intro x hx; simp [vsub] at hx
  | @cons x y xs ys hxy _ ih =>
    intro z hz
    simp only [vsub, List.zipWith_cons_cons] at hz
    rcases List.mem_cons.mp hz with rfl | hz2
    · omega
    · exact ih z hz2

theorem length_filter_split {α : Type} (l : List α) (p : α → Bool) :
    (l.filter p).length + (l.filter (fun x => !(p x))).length =
      l.length := by
  induction l with
  | nil => rfl
  | cons x xs ih =>
    cases hx : p x with
    | true =>
      simp [List.filter_cons, hx]
      omega
    | false =>
      simp [List.filter_cons, hx]
      omega

theorem length_le_sum_of_one_le {α : Type} (l : List α) (f : α → ℕ)
    (h : ∀ x ∈ l, 1 ≤ f x) : l.length ≤ (l.map f).sum := by
  induction l with
  | nil => simp
  | cons x xs ih =>
    simp only [List.map_cons, List.sum_cons, List.length_cons]
    have h1 := h x (List.mem_cons_self x xs)
    have h2 := ih (fun z hz => h z (List.mem_cons_of_mem _ hz))
    omega

theorem predChain_zero_count : ∀ (fuel : ℕ) (b d : DV),
    ((predChain fuel b d).filter (fun v => isZero v)).length ≤ 1 := by
  intro fuel
  induction fuel with
  | zero => intro b d; simp [predChain]
  | succ n ih =>
    intro b d
    cases he : predOf b d with
    | none => rw [predChain_none _ he]; simp
    | some e1 =>
      rw [predChain_some _ he]
      by_cases hz : isZero e1 = true
      · rw [if_pos hz]; simp [List.filter_cons, hz]
      · rw [if_neg hz]
        simp only [List.filter_cons]
        have hz' : isZero e1 = false := by simpa using hz
        rw [hz']
        exact ih e1 d

/-- For the standard cone, one call of `_partitions(d, d)` performs at
least `boxSize d - 2` loop iterations: each of the `boxSize d - 1`
summands of the descent chain except the zero vector starts its loop
with `r = d - e` inside the cone. -/
theorem sc_callSteps_ge {r : ℕ} {d : DV} (hnn : NN d)
    (hlen : d.length = r) (hdz : isZero d = false) :
    boxSize d - 2 ≤ conePartCallSteps (sc r) 1 d d := by
  have hforall : ∀ e ∈ ((sc r).summandsBelow d d).filter
      (fun e => !(isZero e)), 1 ≤ whileSteps (sc r) 1 e (vsub d e) := by
    intro e he
    rw [List.mem_filter] at he
    have hcle := sc_summands_cle he.1
    have hmem : (sc r).mem (vsub d e) = true := by
      rw [sc_mem_iff]
      constructor
      · rw [vsub_length, hcle.len]; omega
      · exact vsub_nn hcle
    rw [whileSteps, if_pos hmem]
    omega
  have hsum := length_le_sum_of_one_le _ _ hforall
  have hsplit := length_filter_split ((sc r).summandsBelow d d)
    (fun e => !(isZero e))
  have hzc : (((sc r).summandsBelow d d).filter
      (fun v => !(!(isZero v)))).length ≤ 1 := by
    have : (((sc r).summandsBelow d d).filter
        (fun v => isZero v)).length ≤ 1 := by
      rw [sc_summandsBelow_eq]
      by_cases hz : isZero d = true
      · rw [if_pos hz]; simp
      · rw [if_neg hz]; exact predChain_zero_count _ d d
    simpa using this
  have hchain := sc_summandsBelow_self_length (r := r) hnn hdz
  unfold conePartCallSteps
  omega

/-- C8 (counterexample): a single call of `Cone._partitions` on the
standard cone of rank 2 at `d = (105, 105)` performs more than 10,000
iterations of its enumeration loop, so the enumerator cited by the claim
carries no 10,000-step cap. -/
theorem C8_counterexample :
    10000 < conePartCallSteps (sc 2) 1 [105, 105] [105, 105] := by
  have h := sc_callSteps_ge (r := 2) (d := [105, 105])
    (by intro x hx; simp at hx; omega) (by decide) (by decide)
  have hbox : boxSize [105, 105] = 11236 := by decide
  omega

/-- C8 (amended): the 10,000-iteration cap lives in the
`StabilityCondition` enumerators: both `partitions` and `hn_partitions`
stop their main loop silently (yielding nothing further, raising no
error) once the per-call counter reaches 10,000; `Cone._partitions` has
no such cap. -/
theorem C8_cap_in_stability_enumerators :
    (∀ (st : StabCond) (fuel : ℕ) (d e r : DV) (i : ℕ), 10000 ≤ i →
      hnLoop st fuel d e r i = []) ∧
    (∀ (st : StabCond) (fuel : ℕ) (d e : DV) (q : ℤ) (r : DV) (i : ℕ),
      10000 ≤ i → scPartLoop st fuel d e q r i = []) := by
  constructor
  · intro st fuel d e r i hi
    cases fuel with
    | zero => rfl
    | succ n => rw [hnLoop, if_neg (by omega)]
  · intro st fuel d e q r i hi
    cases fuel with
    | zero => rfl
    | succ n => rw [scPartLoop, if_neg (by omega)]

/-- Witness for C8 (amended) at the counter value 10,000. -/
theorem C8_witness :
    hnLoop hnStab 3 [1, 1] [1, 1] [0, 0] 10000 = [] ∧
      scPartLoop hnStab 3 [1, 1] [1, 1] 1 [0, 0] 10000 = [] :=
  ⟨C8_cap_in_stability_enumerators.1 hnStab 3 [1, 1] [1, 1] [0, 0] 10000
      (by omega),
    C8_cap_in_stability_enumerators.2 hnStab 3 [1, 1] [1, 1] 1 [0, 0] 10000
      (by omega)⟩

/-- Value-level `MotivicSeries.at` (`motives/motivic_series.py` lines
23-26): the ring zero outside the cone, the coefficient function inside
(the legacy `cone.contains` is the containment predicate
`Cone.__contains__`). -/
def seriesAt {A : Type} [Zero A] (c : Cone) (at_dv : DV → A) (d : DV) : A :=
  if c.mem d then at_dv d else 0

/-- Source `AbelianCategory.set_normalized_motive_of_objects`: a
`MotivicSeries` over the same cone with coefficient function
`lambda d: R ** self.euler_pairing(d, d) * self.motive_of_objects(d)`
(the euler pairing is a sparse `Pairing`, the motive of objects is the
gated series). -/
def normalizedMotiveAt {A : Type} [Field A] (c : Cone) (R : A)
    (euler : List ((ℕ × ℕ) × ℤ)) (moAt : DV → A) (d : DV) : A :=
  seriesAt c (fun d2 => R ^ bilin euler d2 d2 * seriesAt c moAt d2) d

/-- C1 (amended): for every dimension vector, the coefficient of
`normalized_motive_of_objects` equals `motive_of_objects(d)` MULTIPLIED
by `R^{euler_pairing(d,d)}` (the code multiplies; it does not divide). -/
theorem C1_normalized_multiplies {A : Type} [Field A] (c : Cone) (R : A)
    (euler : List ((ℕ × ℕ) × ℤ)) (moAt : DV → A) (d : DV) :
    normalizedMotiveAt c R euler moAt d =
      seriesAt c moAt d * R ^ bilin euler d d := by
  by_cases h : c.mem d = true
  · simp only [normalizedMotiveAt, seriesAt, h, if_true]
    ring
  · have h2 : c.mem d = false := by simpa using h
    simp [normalizedMotiveAt, seriesAt, h2]

/-- C1 (counterexample): over ℚ with `R = 2`, the rank-1 unit euler
pairing and the constant motive 1, the normalized coefficient at
`d = (1)` is `2 = R^{chi(d,d)} * 1`, not `1/2 = 1 / R^{chi(d,d)}` as the
claim's division would give. -/
theorem C1_counterexample :
    normalizedMotiveAt (sc 1) (2 : ℚ) [((0, 0), 1)] (fun _ => 1) [1] = 2 ∧
    ¬ normalizedMotiveAt (sc 1) (2 : ℚ) [((0, 0), 1)] (fun _ => 1) [1] =
      seriesAt (sc 1) (fun _ => (1 : ℚ)) [1] *
        (2 : ℚ) ^ (-bilin [((0, 0), 1)] [1] [1]) := by
  have hb : bilin [((0, 0), 1)] [1] [1] = 1 := by decide
  have hm : (sc 1).mem [1] = true := by decide
  constructor
  · simp only [normalizedMotiveAt, seriesAt, hm, if_true, hb]
    norm_num
  · simp only [normalizedMotiveAt, seriesAt, hm, if_true, hb]
    norm_num

/-- Python-level errors of the series layer. -/
abbrev PyErr := String

/-- Source `GradedMotive.at`: assert the length, then invoke the
coefficient function (a fallible computation, so that non-invocation is
observable). -/
def gradedAtE {A : Type} (rank : ℕ) (at_dv : DV → Except PyErr A)
    (d : DV) : Except PyErr A :=
  if d.length = rank then at_dv d
  else .error "AssertionError: DimensionVector must have wrong length"

/-- Source `MotivicSeries.at` (`motives/motivic_series.py` lines 23-26)
in the fallible model: the ring zero outside the cone without touching
the coefficient function, the parent lookup inside. -/
def seriesAtE {A : Type} [Zero A] (c : Cone)
    (at_dv : DV → Except PyErr A) (d : DV) : Except PyErr A :=
  if c.mem d then gradedAtE c.rank at_dv d else .ok 0

/-- C3: for every cone, every coefficient function (even an
always-raising one) and every vector of matching rank outside the cone,
`at(d)` returns the ring zero: it neither raises nor invokes
`at_dv`/`_at` (the result is independent of the coefficient
function). -/
theorem C3_at_outside_cone {A : Type} [Zero A] (c : Cone)
    (f g : DV → Except PyErr A) (d : DV) (hrank : d.length = c.rank)
    (hout : c.mem d = false) :
    seriesAtE c f d = .ok 0 ∧ seriesAtE c f d = seriesAtE c g d := by
  unfold seriesAtE
  rw [hout]
  exact ⟨rfl, rfl⟩

/-- Witness for C3: the standard cone of rank 1 at `d = (-1)`, with an
always-raising coefficient function. -/
theorem C3_witness :
    seriesAtE (sc 1) (fun _ => .error "boom") [-1] = .ok (0 : ℚ) ∧
      seriesAtE (sc 1) (fun _ => .error "boom") [-1] =
        seriesAtE (sc 1) (fun _ => .ok (7 : ℚ)) [-1] :=
  C3_at_outside_cone (sc 1) (fun _ => .error "boom") (fun _ => .ok 7)
    [-1] (by decide) (by decide)

/-- Source `Exp._validate` (`motives/exp.py` lines 18-19): assert that
the argument series vanishes at the zero vector; the argument is queried
through its gated `at`. -/
def expValidate {A : Type} [Zero A] [DecidableEq A] (c : Cone)
    (argAt : DV → A) : Except PyErr Unit :=
  if seriesAt c argAt (zeroV c.rank) = 0 then .ok ()
  else .error "AssertionError: coeff of argument at zero dimension vector must be 0"

/-- Python keyword binding for `DimensionVector.zero`: the signature in
`dimension_vector.py` line 134 is `zero(cls, length)`, so only the
keyword `length` binds; any other keyword raises `TypeError`. -/
def zeroByKeyword (kw : String) (n : ℕ) : Except PyErr DV :=
  if kw = "length" then .ok (zeroV n)
  else .error "TypeError: zero() got an unexpected keyword argument"

/-- Source `Log._validate` (`motives/log.py` lines 18-21): the zero
vector is requested via the keyword `num_vertices`
(`DimensionVector.zero(num_vertices=self.rank)`), and only then the
assertion `arg.at(zero) == 1` would run. -/
def logValidate {A : Type} [Zero A] [One A] [DecidableEq A] (c : Cone)
    (argAt : DV → A) : Except PyErr Unit :=
  match zeroByKeyword "num_vertices" c.rank with
  | .error e => .error e
  | .ok z =>
    if seriesAt c argAt z = 1 then .ok ()
    else .error "AssertionError: coeff of argument at zero dimension vector must be 1"

/-- C7 (the code at the failing input): `Exp`'s construction-time check
fails exactly when the argument series does not vanish at the zero
vector, but `Log.__init__` raises the keyword `TypeError` for every
argument — even one equal to the ring unit at the zero vector — because
`DimensionVector.zero` accepts `length`, not `num_vertices`. -/
theorem C7_validate_behaviour :
    (∀ (c : Cone) (argAt : DV → ℚ),
      expValidate c argAt = .ok () ↔ seriesAt c argAt (zeroV c.rank) = 0) ∧
    (∀ (c : Cone) (argAt : DV → ℚ),
      logValidate c argAt =
        .error "TypeError: zero() got an unexpected keyword argument") ∧
    seriesAt (sc 1) (fun _ => (1 : ℚ)) (zeroV 1) = 1 := by
  refine ⟨?_, ?_, by decide⟩
  · intro c argAt
    unfold expValidate
    by_cases h : seriesAt c argAt (zeroV c.rank) = 0
    · rw [if_pos h]; simp [h]
    · rw [if_neg h]; simp [h]
  · intro c argAt
    rfl

/-- Source `Phase` (`phase.py`): the representing complex number with
integer real and imaginary parts, and the branch. -/
structure PPhase where
  real : ℤ
  imag : ℤ
  branch : ℤ

/-- Source `Phase.of(z, branch)`. -/
def PPhase.of (z : ℤ × ℤ) (branch : ℤ) : PPhase := ⟨z.1, z.2, branch⟩

/-- Source `Phase.is_in_upper_half_plane`:
`imag > 0 or imag == 0 and real > 0`. -/
def PPhase.isUpper (p : PPhase) : Bool :=
  decide (0 < p.imag) || (decide (p.imag = 0) && decide (0 < p.real))

/-- Source `Phase.__int__`: `2*branch` when the representing point is in
the upper half plane, else `2*branch + 1`. -/
def PPhase.toInt (p : PPhase) : ℤ :=
  if p.isUpper then 2 * p.branch else 2 * p.branch + 1

/-- Source `Phase.__eq__`: equal integer parts and equal slopes (tested
by the cross product of the representing points). -/
def PPhase.eqB (p q : PPhase) : Bool :=
  decide (p.toInt = q.toInt) && decide (p.real * q.imag = q.real * p.imag)

/-- Source `Phase.covers(z)`: `self == Phase.of(z, branch=self.branch)`. -/
def PPhase.covers (p : PPhase) (z : ℤ × ℤ) : Bool :=
  p.eqB (PPhase.of z p.branch)

/-- Source `CentralCharge.__call__`: the pair of integer linear forms. -/
def chargeOf (re im : List ℤ) (d : DV) : ℤ × ℤ :=
  ((List.zipWith (fun a x => a * x) re d).sum,
   (List.zipWith (fun a x => a * x) im d).sum)

/-- Source `MotiveOfSemistables.cone_at(phi)` containment predicate for
an even branch: ambient containment and `phi.covers(charge(d))`. -/
def coneAtContains (ambient : Cone) (re im : List ℤ) (phi : PPhase)
    (d : DV) : Bool :=
  ambient.mem d && phi.covers (chargeOf re im d)

/-- C9 (the code at the failing input): `covers((0,0))` returns the
NEGATION of `is_in_upper_half_plane` — the code classifies `(0,0)` as
not in the upper half plane, so its integer part is `2*branch + 1` —
hence the docstring's example `Phase.of(z=(2,3)).covers(z=(0,0))` is
`False`, and the per-phase cone at such a phase rejects the zero vector
even though its charge is `(0, 0)`. -/
theorem C9_covers_zero_bug :
    (∀ p : PPhase, p.covers (0, 0) = !p.isUpper) ∧
    (PPhase.of (2, 3) 0).covers (0, 0) = false ∧
    chargeOf [0, 1] [1, 1] (zeroV 2) = (0, 0) ∧
    (sc 2).mem (zeroV 2) = true ∧
    coneAtContains (sc 2) [0, 1] [1, 1] (PPhase.of (2, 3) 0)
      (zeroV 2) = false := by
  refine ⟨?_, by decide, by decide, by decide, by decide⟩
  intro p
  have hz : PPhase.isUpper ⟨0, 0, p.branch⟩ = false := rfl
  unfold PPhase.covers PPhase.eqB PPhase.of
  cases hu : p.isUpper with
  | false =>
    simp only [PPhase.toInt, hu, hz]
    simp
  | true =>
    simp only [PPhase.toInt, hu, hz]
    simp only [Bool.false_eq_true, if_false, if_true, ite_true, ite_false,
      Bool.not_true, mul_zero, zero_mul, decide_eq_true_eq]
    rw [decide_eq_false (show ¬(2 * p.branch = 2 * p.branch + 1) by omega)]
    simp

/-- Errors of `Pairing._validate`. -/
inductive PairingError where
  | badKeyShape
  | indexOutOfRange
  | badValue
  deriving DecidableEq

/-- Source `Pairing._validate` key loop (`pairing.py` lines 29-39):
walk the coefficient entries in order and raise `ValueError` on the
first offending key; the index check fires only when BOTH indices lie
outside `range(rank)` (the source condition uses `and`). -/
def pairingValidate (rank : ℕ) (coeff : List ((ℤ × ℤ) × ℤ)) :
    Except PairingError Unit :=
  match coeff with
  | [] => .ok ()
  | (k, _) :: rest =>
    if (k.1 < 0 ∨ (rank : ℤ) ≤ k.1) ∧ (k.2 < 0 ∨ (rank : ℤ) ≤ k.2) then
      .error .indexOutOfRange
    else pairingValidate rank rest

/-- C10: the validator accepts a coefficient map if and only if no key
has BOTH indices outside `[0, rank)`; in particular, rank 3 with
`{(3,0): 1}` is accepted although index 3 is out of range, while
`{(3,3): 2}` (the repository's own test case) is rejected. -/
theorem C10_pairing_validate_and :
    (∀ (rank : ℕ) (coeff : List ((ℤ × ℤ) × ℤ)),
      pairingValidate rank coeff = .ok () ↔
        ∀ kv ∈ coeff,
          ¬((kv.1.1 < 0 ∨ (rank : ℤ) ≤ kv.1.1) ∧
            (kv.1.2 < 0 ∨ (rank : ℤ) ≤ kv.1.2))) ∧
    pairingValidate 3 [((3, 0), 1)] = .ok () ∧
    pairingValidate 3 [((3, 3), 2)] = .error .indexOutOfRange := by
  refine ⟨?_, by rfl, by rfl⟩
  intro rank coeff
  induction coeff with
  | nil => simp [pairingValidate]
  | cons kv rest ih =>
    rw [pairingValidate]
    by_cases hk : (kv.1.1 < 0 ∨ (rank : ℤ) ≤ kv.1.1) ∧
        (kv.1.2 < 0 ∨ (rank : ℤ) ≤ kv.1.2)
    · rw [if_pos hk]
      simp only [List.mem_cons]
      constructor
      · intro h; exact absurd h (by simp)
      · intro h
        exact absurd hk (h kv (Or.inl rfl))
    · rw [if_neg hk]
      rw [ih]
      constructor
      · intro h kv2 hkv2
        rcases List.mem_cons.mp hkv2 with rfl | hkv2
        · exact hk
        · exact h kv2 hkv2
      · intro h kv2 hkv2
        exact h kv2 (List.mem_cons_of_mem _ hkv2)

/-- Source `sympy.divisors(n)`: the positive divisors of `n` in
ascending order. -/
def divisorsList (n : ℕ) : List ℕ :=
  (List.range (n + 1)).filter (fun k => decide (0 < k) && decide (k ∣ n))

/-- Source `n = d[0] if len(d) == 1 else gcd(*d)` in `Exp._psi` and
`Log._psi_red` (divisor lists use the absolute value). -/
def nOf (d : DV) : ℕ :=
  match d with
  | [x] => x.natAbs
  | _ => (d.map Int.natAbs).foldr Nat.gcd 0

theorem mem_divisorsList {k n : ℕ} :
    k ∈ divisorsList n ↔ k < n + 1 ∧ 0 < k ∧ k ∣ n := by
  simp [divisorsList, List.mem_filter, List.mem_range, and_assoc]

theorem range_filter_one : ∀ m : ℕ, 2 ≤ m →
    (List.range m).filter (fun k => k == 1) = [1] := by
  intro m
  induction m with
  | zero => omega
  | succ n ih =>
    intro h
    rw [List.range_succ, List.filter_append]
    by_cases hn : 2 ≤ n
    · rw [ih hn]
      have hne : ¬(n == 1) = true := by simp; omega
      simp only [List.filter_cons, List.filter_nil, hne, if_neg]
      simp
    · have hn2 : n = 1 := by omega
      subst hn2
      rfl

theorem divisorsList_filter_one {n : ℕ} (hn : 1 ≤ n) :
    (divisorsList n).filter (fun k => k == 1) = [1] := by
  unfold divisorsList
  rw [List.filter_filter]
  have hcong : ∀ k ∈ List.range (n + 1),
      ((k == 1) && (decide (0 < k) && decide (k ∣ n))) = (k == 1) := by
    intro k _
    by_cases hk : k = 1
    · subst hk
      simp [hn, Nat.one_dvd]
    · have : (k == 1) = false := by simp [hk]
      simp [this]
  rw [List.filter_congr hcong]
  exact range_filter_one (n + 1) (by omega)

theorem sum_filter_split {A : Type} [AddCommMonoid A] (l : List ℕ)
    (p : ℕ → Bool) (f : ℕ → A) :
    ((l.filter p).map f).sum + ((l.filter (fun x => !(p x))).map f).sum
      = (l.map f).sum := by
  induction l with
  | nil => simp
  | cons x xs ih =>
    cases hx : p x with
    | true =>
      simp only [List.filter_cons, hx, Bool.not_true, if_neg, List.map_cons,
        List.sum_cons]
      simp only [ite_true, ite_false, Bool.false_eq_true, List.map_cons,
        List.sum_cons]
      rw [add_assoc, ih]
    | false =>
      simp only [List.filter_cons, hx, Bool.not_false, List.map_cons,
        List.sum_cons]
      simp only [ite_true, ite_false, Bool.false_eq_true, List.map_cons,
        List.sum_cons]
      rw [add_left_comm, ih]

/-- Splitting the divisor sum of `Exp._psi` into its `k = 1` term and
the reduced sum of `Log._psi_red`. -/
theorem divisors_sum_split {A : Type} [AddCommMonoid A] {n : ℕ}
    (hn : 1 ≤ n) (f : ℕ → A) :
    ((divisorsList n).map f).sum =
      f 1 + (((divisorsList n).filter (fun k => !(k == 1))).map f).sum := by
  rw [← sum_filter_split (divisorsList n) (fun k => k == 1) f,
    divisorsList_filter_one hn]
  simp

theorem nOf_pos {d : DV} (h : isZero d = false) : 0 < nOf d := by
  match d with
  | [] => simp [isZero] at h
  | [x] =>
    have : ¬(x = 0) := by
      intro hx
      subst hx
      simp [isZero] at h
    simp only [nOf]
    omega
  | x :: y :: rest =>
    have hex : ∃ z ∈ x :: y :: rest, z ≠ 0 := by
      by_contra hcon
      push_neg at hcon
      rw [isZero_iff.mpr hcon] at h
      exact Bool.noConfusion h
    show 0 < ((x :: y :: rest).map Int.natAbs).foldr Nat.gcd 0
    obtain ⟨z, hz, hzne⟩ := hex
    have : ∀ (l : List ℤ) (w : ℤ), w ∈ l → w ≠ 0 →
        0 < (l.map Int.natAbs).foldr Nat.gcd 0 := by
      intro l
      induction l with
      | nil => intro w hw; simp at hw
      | cons a as ih =>
        intro w hw hwne
        simp only [List.map_cons, List.foldr_cons]
        rcases List.mem_cons.mp hw with rfl | hw2
        · have : 0 < w.natAbs := by omega
          exact Nat.pos_of_ne_zero (fun hg =>
            by have := Nat.gcd_eq_zero_iff.mp hg; omega)
        · have hrest := ih w hw2 hwne
          exact Nat.pos_of_ne_zero (fun hg =>
            by have := Nat.gcd_eq_zero_iff.mp hg; omega)
    exact this _ z hz hzne

theorem foldr_gcd_dvd {k : ℕ} : ∀ (l : List ℕ),
    k ∣ l.foldr Nat.gcd 0 → ∀ a ∈ l, k ∣ a := by
  intro l
  induction l with
  | nil => intro _ a ha; simp at ha
  | cons b bs ih =>
    intro h a ha
    simp only [List.foldr_cons] at h
    rcases List.mem_cons.mp ha with rfl | ha2
    · exact dvd_trans h (Nat.gcd_dvd_left _ _)
    · exact ih (dvd_trans h (Nat.gcd_dvd_right _ _)) a ha2

theorem nOf_dvd_coords {d : DV} {k : ℕ} (h : k ∣ nOf d) :
    ∀ x ∈ d, (k : ℤ) ∣ x := by
  have habs : ∀ x ∈ d, k ∣ x.natAbs := by
    match d with
    | [] => intro x hx; simp at hx
    | [y] =>
      intro x hx
      simp at hx
      subst hx
      exact h
    | y :: z :: rest =>
      intro x hx
      have h2 : k ∣ ((y :: z :: rest).map Int.natAbs).foldr Nat.gcd 0 := h
      exact foldr_gcd_dvd _ h2 x.natAbs (List.mem_map_of_mem _ hx)
  intro x hx
  exact Int.dvd_natAbs.mp (Int.natCast_dvd_natCast.mpr (habs x hx))

theorem csum_cons (x : ℤ) (xs : List ℤ) :
    csum (x :: xs) = x.toNat + csum xs := rfl

theorem csum_le_of_cle {e d : DV} (h : CLe e d) (hnn : NN e) :
    csum e ≤ csum d := by
  induction h with
  | nil => exact le_rfl
  | @cons x y xs ys hxy _ ih =>
    have hx : 0 ≤ x := hnn x (List.mem_cons_self x xs)
    have hxs : NN xs := fun z hz => hnn z (List.mem_cons_of_mem _ hz)
    rw [csum_cons, csum_cons]
    have := ih hxs
    omega

theorem csum_lt_of_cle_ne {e d : DV} (h : CLe e d) (hnn : NN e)
    (hne : e ≠ d) : csum e < csum d := by
  induction h with
  | nil => exact absurd rfl hne
  | @cons x y xs ys hxy htl ih =>
    have hx : 0 ≤ x := hnn x (List.mem_cons_self x xs)
    have hxs : NN xs := fun z hz => hnn z (List.mem_cons_of_mem _ hz)
    rw [csum_cons, csum_cons]
    by_cases hxy2 : x = y
    · subst hxy2
      have hne2 : xs ≠ ys := fun hc => hne (by rw [hc])
      have := ih hxs hne2
      omega
    · have h1 : x.toNat < y.toNat := by omega
      have h2 := csum_le_of_cle htl hxs
      omega

theorem csum_pos {d : DV} (hnn : NN d) (h : isZero d = false) :
    0 < csum d := by
  have hex : ∃ z ∈ d, z ≠ 0 := by
    by_contra hcon
    push_neg at hcon
    rw [isZero_iff.mpr hcon] at h
    exact Bool.noConfusion h
  obtain ⟨z, hz, hzne⟩ := hex
  have hzp : 0 < z := by have := hnn z hz; omega
  clear h
  induction d with
  | nil => simp at hz
  | cons x xs ih =>
    rw [csum_cons]
    rcases List.mem_cons.mp hz with rfl | hz2
    · omega
    · have := ih (fun w hw => hnn w (List.mem_cons_of_mem _ hw)) hz2
      omega

theorem csum_sdiv_mul {d : DV} {k : ℕ} (hnn : NN d)
    (hdvd : ∀ x ∈ d, (k : ℤ) ∣ x) (hk : 0 < k) :
    csum (sdiv d k) * k = csum d := by
  induction d with
  | nil => simp [sdiv, csum]
  | cons x xs ih =>
    have hx : 0 ≤ x := hnn x (List.mem_cons_self x xs)
    have hxs : NN xs := fun z hz => hnn z (List.mem_cons_of_mem _ hz)
    have hxd := hdvd x (List.mem_cons_self x xs)
    have hxsd : ∀ z ∈ xs, (k : ℤ) ∣ z :=
      fun z hz => hdvd z (List.mem_cons_of_mem _ hz)
    obtain ⟨m, hm⟩ := hxd
    have hmnn : 0 ≤ m := by
      by_contra hc
      push_neg at hc
      have : x < 0 := by
        rw [hm]
        have : (0 : ℤ) < k := by exact_mod_cast hk
        exact mul_neg_of_pos_of_neg this hc
      omega
    have hdivx : x / (k : ℤ) = m := by
      rw [hm]
      exact Int.mul_ediv_cancel_left m (by omega)
    show (csum ((x / (k : ℤ)) :: sdiv xs k)) * k = csum (x :: xs)
    rw [csum_cons, csum_cons, hdivx, Nat.add_mul, ih hxs hxsd]
    have hmn : (m.toNat : ℤ) = m := Int.toNat_of_nonneg hmnn
    have hx2 : x = ((k * m.toNat : ℕ) : ℤ) := by
      push_cast
      rw [hmn]
      exact hm
    have hxt : x.toNat = k * m.toNat := by rw [hx2, Int.toNat_natCast]
    rw [hxt, Nat.mul_comm]

theorem csum_sdiv_lt {d : DV} {k : ℕ} (hnn : NN d) (hdz : isZero d = false)
    (hdvd : ∀ x ∈ d, (k : ℤ) ∣ x) (hk : 2 ≤ k) :
    csum (sdiv d k) < csum d := by
  have hmul := csum_sdiv_mul hnn hdvd (by omega)
  have hpos := csum_pos hnn hdz
  by_contra hcon
  push_neg at hcon
  have h1 : csum d * k ≤ csum (sdiv d k) * k :=
    Nat.mul_le_mul_right k hcon
  rw [hmul] at h1
  have h2 : csum d * 2 ≤ csum d * k :=
    Nat.mul_le_mul_left (csum d) hk
  omega

theorem dictInsert_mem {e : DV} {q : ℕ} {p : Partition} {em : DV × ℕ}
    (h : em ∈ dictInsert e q p) : em.1 = e ∨ em ∈ p := by
  unfold dictInsert at h
  cases hf : p.find? (fun x => x.1 == e) with
  | none =>
    rw [hf] at h
    rcases List.mem_cons.mp h with rfl | h2
    · exact Or.inl rfl
    · exact Or.inr h2
  | some x =>
    rw [hf] at h
    rcases List.mem_cons.mp h with rfl | h2
    · exact Or.inl rfl
    · exact Or.inr (List.mem_filter.mp h2).1

/-- Keys of the partitions emitted by the standard cone stay inside the
cone and inside the box of `d`. -/
theorem sc_partsKeys (r : ℕ) : ∀ fuel : ℕ,
    (∀ d b p, NN d → NN b → d.length = r → p ∈ partsAux (sc r) fuel d b →
      ∀ em ∈ p, NN em.1 ∧ CLe em.1 d ∧ (sc r).mem em.1 = true) ∧
    (∀ (d e : DV) (q : ℕ) (r2 : DV) (p : Partition), NN d → d.length = r →
      NN e → CLe e d → e.length = d.length → CLe r2 d →
      r2.length = d.length → p ∈ partLoop (sc r) fuel d e q r2 →
      ∀ em ∈ p, NN em.1 ∧ CLe em.1 d ∧ (sc r).mem em.1 = true) := by
  intro fuel
  induction fuel with
  | zero =>
    constructor
    · intro d b p _ _ _ h; simp [partsAux] at h
    · intro d e q r2 p _ _ _ _ _ _ _ h; simp [partLoop] at h
  | succ n ih =>
    obtain ⟨ihAux, ihLoop⟩ := ih
    constructor
    · intro d b p hd hb hdr h
      rw [partsAux] at h
      rw [List.mem_flatMap] at h
      obtain ⟨e, hesb, hp⟩ := h
      by_cases hez : isZero e = true
      · rw [if_pos hez] at hp; simp at hp
      · rw [if_neg hez] at hp
        have hnne : NN e := sc_summands_nn hd hb hesb
        have hcle : CLe e d := sc_summands_cle hesb
        have helen : e.length = d.length := sc_summands_len hesb
        exact ihLoop d e 1 (vsub d e) p hd hdr hnne hcle helen
          (vsub_cle helen hnne)
          (by rw [vsub_length, helen]; omega) hp
    · intro d e q r2 p hd hdr hnne hcle helen hr2le hr2len h
      rw [partLoop] at h
      by_cases hmem : (sc r).mem r2 = true
      · rw [if_pos hmem] at h
        obtain ⟨hr2len2, hr2nn⟩ := sc_mem_iff.mp hmem
        rcases List.mem_append.mp h with h1 | h2
        · by_cases hrz : isZero r2 = true
          · rw [if_pos hrz] at h1
            simp at h1
            subst h1
            intro em hem
            simp at hem
            subst hem
            exact ⟨hnne, hcle,
              sc_mem_iff.mpr ⟨show List.length e = r by omega, hnne⟩⟩
          · rw [if_neg hrz] at h1
            rw [List.mem_map] at h1
            obtain ⟨p0, hp0, hpd⟩ := h1
            subst hpd
            intro em hem
            rcases dictInsert_mem hem with hkey | hem2
            · refine ⟨?_, ?_, ?_⟩ <;> rw [hkey]
              · exact hnne
              · exact hcle
              · exact sc_mem_iff.mpr ⟨show List.length e = r by omega, hnne⟩
            · have := ihAux r2 e p0 hr2nn hnne (by omega) hp0 em hem2
              exact ⟨this.1, this.2.1.trans hr2le, this.2.2⟩
        · exact ihLoop d e (q + 1) (vsub r2 e) p hd hdr hnne hcle helen
            ((vsub_cle (by omega) hnne).trans hr2le)
            (by rw [vsub_length]; omega) h2
      · rw [if_neg hmem] at h
        simp at h

/-- The key hypothesis of the plethystic round trip, discharged for the
standard cone: every key of a nontrivial partition of a cone member is a
cone member of strictly smaller coordinate sum. -/
theorem sc_hkey (r F : ℕ) :
    ∀ d p, (sc r).mem d = true → p ∈ partsAux (sc r) F d d →
      ∀ em ∈ p, (sc r).mem em.1 = true ∧ csum em.1 < csum d := by
  intro d p hd hp em hem
  obtain ⟨hlen, hnn⟩ := sc_mem_iff.mp hd
  obtain ⟨hnne, hcle, hmem⟩ :=
    (sc_partsKeys r F).1 d d p hnn hnn hlen hp em hem
  have hlx := (partsAux_keys (sc_hlex r) (sc_hlen r) hp em hem).1
  exact ⟨hmem, csum_lt_of_cle_ne hcle hnne (lexLt_ne hlx)⟩

/-- The divisor hypothesis of the plethystic round trip, discharged for
the standard cone: exact division by a divisor `k > 1` of the gcd
strictly shrinks the coordinate sum. -/
theorem sc_hdiv (r : ℕ) :
    ∀ d k, (sc r).mem d = true → isZero d = false →
      k ∈ divisorsList (nOf d) → k ≠ 1 → csum (sdiv d k) < csum d := by
  intro d k hd hdz hk hk1
  obtain ⟨hlen, hnn⟩ := sc_mem_iff.mp hd
  obtain ⟨_, hkpos, hkdvd⟩ := mem_divisorsList.mp hk
  exact csum_sdiv_lt hnn hdz (nOf_dvd_coords hkdvd) (by omega)

/-- Source `Exp._psi`: the divisor sum
`sum(arg(d / k).subs(R, -(-R)^k) * Rational(1, k) for k in divisors(n))`
with `g` the (gated) argument series and `subs k` the abstract
substitution `R -> -(-R)^k` on the opaque ring. -/
def psiAllOf {A : Type} [Field A] (subs : ℕ → A → A) (g : DV → A)
    (d : DV) : A :=
  ((divisorsList (nOf d)).map
    (fun k => subs k (g (sdiv d k)) * (k : A)⁻¹)).sum

/-- Source `Log._psi_red`: the same divisor sum restricted to
`k != 1`, over the transform's own values. -/
def psiRedOf {A : Type} [Field A] (subs : ℕ → A → A) (g : DV → A)
    (d : DV) : A :=
  (((divisorsList (nOf d)).filter (fun k => !(k == 1))).map
    (fun k => subs k (g (sdiv d k)) * (k : A)⁻¹)).sum

/-- Source `Exp._at`: 1 at the zero vector, otherwise the sum over all
cone partitions of the factorial-weighted products of `psi` values
(sympy `factor` is value-preserving and dropped in the ring model). -/
def expCoeff {A : Type} [Field A] (c : Cone) (F : ℕ) (subs : ℕ → A → A)
    (argAt : DV → A) (d : DV) : A :=
  if isZero d then 1
  else ((conePartitions c F d).map (fun p =>
    (p.map (fun em => psiAllOf subs argAt em.1 ^ em.2 *
      ((em.2).factorial : A)⁻¹)).prod)).sum

/-- Source `MotivicSeries.at` for the `Exp` series: the cone gate
around `Exp._at`. -/
def expSeriesAt {A : Type} [Field A] (c : Cone) (F : ℕ)
    (subs : ℕ → A → A) (argAt : DV → A) (d : DV) : A :=
  if c.mem d then expCoeff c F subs argAt d else 0

/-- Source `Log.at`/`Log._at` with explicit recursion fuel: the cone
gate; 0 at the zero vector; otherwise
`arg(d) - psi_red(d) - sum(prod((psi_red(e) + Log(e))^m / m!, ...)
for p in partitions(d) if p != {d: 1})`; recursive occurrences of the
transform run at one fuel less. -/
def logAt {A : Type} [Field A] (c : Cone) (F : ℕ) (subs : ℕ → A → A)
    (argAt : DV → A) : ℕ → DV → A
  | 0, _ => 0
  | f + 1, d =>
    if c.mem d then
      (if isZero d then 0
       else argAt d - psiRedOf subs (logAt c F subs argAt f) d -
         (((conePartitions c F d).filter
             (fun p => !(dictEq p [(d, 1)]))).map
           (fun p => (p.map (fun em =>
             (psiRedOf subs (logAt c F subs argAt f) em.1 +
               logAt c F subs argAt f em.1) ^ em.2 *
             ((em.2).factorial : A)⁻¹)).prod)).sum)
    else 0

theorem sdiv_one (d : DV) : sdiv d 1 = d := by
  simp [sdiv]

theorem map_congr_mem {α β : Type} : ∀ {l : List α} {f g : α → β},
    (∀ x ∈ l, f x = g x) → l.map f = l.map g := by
  intro l
  induction l with
  | nil => intro f g _; rfl
  | cons x xs ih =>
    intro f g h
    simp only [List.map_cons]
    rw [h x (List.mem_cons_self x xs),
      ih (fun z hz => h z (List.mem_cons_of_mem _ hz))]

/-- Splitting off the identity substitution: `psi(d)` is `g(d)` plus the
reduced psi sum. -/
theorem psiAllOf_eq {A : Type} [Field A] (subs : ℕ → A → A)
    (hsub1 : ∀ a : A, subs 1 a = a) (g : DV → A) {d : DV}
    (hd : isZero d = false) :
    psiAllOf subs g d = g d + psiRedOf subs g d := by
  unfold psiAllOf psiRedOf
  rw [divisors_sum_split (nOf_pos hd)
    (fun k => subs k (g (sdiv d k)) * (k : A)⁻¹)]
  rw [sdiv_one, hsub1]
  simp

theorem dictEq_head_ne {e d : DV} {m : ℕ} {p2 : Partition} (hne : e ≠ d) :
    dictEq ((e, m) :: p2) [(d, 1)] = false := by
  unfold dictEq
  rw [List.all_cons]
  have hbeq : (d == e) = false := by
    simp only [beq_eq_false_iff_ne, ne_eq]
    exact fun h => hne h.symm
  have hfind : ([((d : DV), (1 : ℕ))].find? (fun y => y.1 == e)) = none := by
    rw [List.find?_cons_of_neg, List.find?_nil]
    simp [hbeq]
  rw [hfind]
  rfl

theorem dictEq_refl_triv (d : DV) : dictEq [(d, 1)] [(d, 1)] = true := by
  unfold dictEq
  have hfind : ([((d : DV), (1 : ℕ))].find? (fun y => y.1 == d)) =
      some (d, 1) := by
    rw [List.find?_cons_of_pos]
    simp
  simp [hfind]

/-- The filter `p != {d: 1}` of `Log._at` removes exactly the leading
trivial partition: the nontrivial ones all start with a summand
strictly below `d`. -/
theorem filter_nontrivial {c : Cone}
    (hlex : ∀ d b e, e ∈ c.summandsBelow d b → lexLt e b = true)
    (hlen : ∀ d b e, e ∈ c.summandsBelow d b → e.length = d.length)
    (F : ℕ) (d : DV) :
    (conePartitions c F d).filter (fun p => !(dictEq p [(d, 1)])) =
      partsAux c F d d := by
  unfold conePartitions
  rw [List.filter_cons]
  rw [dictEq_refl_triv d]
  simp only [Bool.not_true, Bool.false_eq_true, if_false, ite_false]
  rw [List.filter_eq_self]
  intro p hp
  obtain ⟨e, m, p2, hps, hesb, _⟩ := partsAux_head hlex hlen hp
  have hne : e ≠ d := lexLt_ne (hlex d d e hesb)
  rw [hps, dictEq_head_ne hne]
  rfl

/-- Expansion of `Exp._at` at a nonzero vector: the trivial partition
contributes `psi(d)`, the rest run over `_partitions(d, d)`. -/
theorem expCoeff_expand {A : Type} [Field A] (c : Cone) (F : ℕ)
    (subs : ℕ → A → A) (g : DV → A) {d : DV} (hd : isZero d = false) :
    expCoeff c F subs g d = psiAllOf subs g d +
      ((partsAux c F d d).map (fun p =>
        (p.map (fun em => psiAllOf subs g em.1 ^ em.2 *
          ((em.2).factorial : A)⁻¹)).prod)).sum := by
  unfold expCoeff conePartitions
  rw [if_neg (by simp [hd])]
  simp [Nat.factorial]

/-- Rewriting the nontrivial sum of `Log._at` through
`psi(e) = log-or-arg(e) + psi_red(e)` at every key. -/
theorem sum_products_eq {A : Type} [Field A] {c : Cone}
    (hlex : ∀ d b e, e ∈ c.summandsBelow d b → lexLt e b = true)
    (hlen : ∀ d b e, e ∈ c.summandsBelow d b → e.length = d.length)
    (F : ℕ) (subs : ℕ → A → A) (hsub1 : ∀ a : A, subs 1 a = a)
    (g : DV → A) (d : DV) :
    ((partsAux c F d d).map (fun p =>
      (p.map (fun em => (psiRedOf subs g em.1 + g em.1) ^ em.2 *
        ((em.2).factorial : A)⁻¹)).prod)).sum =
    ((partsAux c F d d).map (fun p =>
      (p.map (fun em => psiAllOf subs g em.1 ^ em.2 *
        ((em.2).factorial : A)⁻¹)).prod)).sum := by
  apply congrArg
  apply map_congr_mem
  intro p hp
  apply congrArg
  apply map_congr_mem
  intro em hem
  have hz := (partsAux_keys hlex hlen hp em hem).2.2.1
  rw [psiAllOf_eq subs hsub1 g hz]
  ring_nf

theorem logAt_succ {A : Type} [Field A] (c : Cone) (F : ℕ)
    (subs : ℕ → A → A) (arg : DV → A) (f : ℕ) (d : DV) :
    logAt c F subs arg (f + 1) d =
      if c.mem d then
        (if isZero d then 0
         else arg d - psiRedOf subs (logAt c F subs arg f) d -
           (((conePartitions c F d).filter
               (fun p => !(dictEq p [(d, 1)]))).map
             (fun p => (p.map (fun em =>
               (psiRedOf subs (logAt c F subs arg f) em.1 +
                 logAt c F subs arg f em.1) ^ em.2 *
               ((em.2).factorial : A)⁻¹)).prod)).sum)
      else 0 := rfl

/-- Congruence of the recursive body of `Log._at` in the transform
values: the body only queries the transform at vectors of strictly
smaller coordinate sum. -/
theorem logBody_congr {A : Type} [Field A] {c : Cone}
    (hlex : ∀ d b e, e ∈ c.summandsBelow d b → lexLt e b = true)
    (hlen : ∀ d b e, e ∈ c.summandsBelow d b → e.length = d.length)
    {F : ℕ}
    (hkey : ∀ d p, c.mem d = true → p ∈ partsAux c F d d →
      ∀ em ∈ p, c.mem em.1 = true ∧ csum em.1 < csum d)
    (hdiv : ∀ d k, c.mem d = true → isZero d = false →
      k ∈ divisorsList (nOf d) → k ≠ 1 → csum (sdiv d k) < csum d)
    (subs : ℕ → A → A) (arg : DV → A) {d : DV} (hm : c.mem d = true)
    (hz : isZero d = false) (L1 L2 : DV → A)
    (hq : ∀ v, csum v < csum d → L1 v = L2 v) :
    arg d - psiRedOf subs L1 d -
      (((conePartitions c F d).filter
          (fun p => !(dictEq p [(d, 1)]))).map
        (fun p => (p.map (fun em =>
          (psiRedOf subs L1 em.1 + L1 em.1) ^ em.2 *
          ((em.2).factorial : A)⁻¹)).prod)).sum =
    arg d - psiRedOf subs L2 d -
      (((conePartitions c F d).filter
          (fun p => !(dictEq p [(d, 1)]))).map
        (fun p => (p.map (fun em =>
          (psiRedOf subs L2 em.1 + L2 em.1) ^ em.2 *
          ((em.2).factorial : A)⁻¹)).prod)).sum := by
  have hpsired : ∀ v, c.mem v = true → isZero v = false → csum v ≤ csum d →
      psiRedOf subs L1 v = psiRedOf subs L2 v := by
    intro v hvm hvz hvle
    unfold psiRedOf
    apply congrArg
    apply map_congr_mem
    intro k hk
    rw [List.mem_filter] at hk
    have hk1 : k ≠ 1 := by
      have := hk.2
      simp at this
      exact this
    have hlt : csum (sdiv v k) < csum v := hdiv v k hvm hvz hk.1 hk1
    rw [hq _ (by omega)]
  have h1 : psiRedOf subs L1 d = psiRedOf subs L2 d :=
    hpsired d hm hz le_rfl
  rw [h1, filter_nontrivial hlex hlen F d]
  congr 1
  apply congrArg
  apply map_congr_mem
  intro p hp
  apply congrArg
  apply map_congr_mem
  intro em hem
  have hkeyem := hkey d p hm hp em hem
  have hzem := (partsAux_keys hlex hlen hp em hem).2.2.1
  rw [hq em.1 hkeyem.2, hpsired em.1 hkeyem.1 hzem (by omega)]

/-- Stabilization: once the fuel exceeds the coordinate sum, the value
of the fueled `Log` transform no longer depends on the fuel. -/
theorem logAt_stab {A : Type} [Field A] {c : Cone} {F : ℕ}
    {subs : ℕ → A → A} {arg : DV → A}
    (hlex : ∀ d b e, e ∈ c.summandsBelow d b → lexLt e b = true)
    (hlen : ∀ d b e, e ∈ c.summandsBelow d b → e.length = d.length)
    (hkey : ∀ d p, c.mem d = true → p ∈ partsAux c F d d →
      ∀ em ∈ p, c.mem em.1 = true ∧ csum em.1 < csum d)
    (hdiv : ∀ d k, c.mem d = true → isZero d = false →
      k ∈ divisorsList (nOf d) → k ≠ 1 → csum (sdiv d k) < csum d) :
    ∀ n : ℕ, ∀ (d : DV) (f g : ℕ), csum d < n → csum d < f →
      csum d < g → logAt c F subs arg f d = logAt c F subs arg g d := by
  intro n
  induction n with
  | zero => intro d f g h _ _; omega
  | succ m ih =>
    intro d f g hn hf hg
    cases f with
    | zero => omega
    | succ f0 =>
      cases g with
      | zero => omega
      | succ g0 =>
        rw [logAt_succ, logAt_succ]
        by_cases hm2 : c.mem d = true
        · rw [if_pos hm2, if_pos hm2]
          by_cases hz : isZero d = true
          · rw [if_pos hz, if_pos hz]
          · have hz2 : isZero d = false := by simpa using hz
            rw [if_neg hz, if_neg hz]
            exact logBody_congr hlex hlen hkey hdiv subs arg hm2 hz2
              (logAt c F subs arg f0) (logAt c F subs arg g0)
              (fun v hv => ih v f0 g0 (by omega) (by omega) (by omega))
        · rw [if_neg hm2, if_neg hm2]

/-- Direction one of the round trip: `Log(Exp(x))` agrees with `x` at
every dimension vector once the fuel exceeds its coordinate sum. -/
theorem roundtrip_a {A : Type} [Field A] (c : Cone) (F : ℕ)
    (subs : ℕ → A → A) (x : DV → A)
    (hlex : ∀ d b e, e ∈ c.summandsBelow d b → lexLt e b = true)
    (hlen : ∀ d b e, e ∈ c.summandsBelow d b → e.length = d.length)
    (hkey : ∀ d p, c.mem d = true → p ∈ partsAux c F d d →
      ∀ em ∈ p, c.mem em.1 = true ∧ csum em.1 < csum d)
    (hdiv : ∀ d k, c.mem d = true → isZero d = false →
      k ∈ divisorsList (nOf d) → k ≠ 1 → csum (sdiv d k) < csum d)
    (hsub1 : ∀ a : A, subs 1 a = a)
    (hx0 : ∀ d, isZero d = true → x d = 0)
    (hgX : ∀ d, c.mem d = false → x d = 0) :
    ∀ (f : ℕ) (d : DV), csum d < f →
      logAt c F subs (expSeriesAt c F subs x) f d = x d := by
  intro f
  induction f with
  | zero => intro d h; omega
  | succ f0 ih =>
    intro d hf
    rw [logAt_succ]
    by_cases hm : c.mem d = true
    · rw [if_pos hm]
      by_cases hz : isZero d = true
      · rw [if_pos hz]
        exact (hx0 d hz).symm
      · have hz2 : isZero d = false := by simpa using hz
        rw [if_neg hz]
        rw [logBody_congr hlex hlen hkey hdiv subs
          (expSeriesAt c F subs x) hm hz2
          (logAt c F subs (expSeriesAt c F subs x) f0) x
          (fun v hv => ih v (by omega))]
        rw [filter_nontrivial hlex hlen F d,
          sum_products_eq hlex hlen F subs hsub1 x d]
        rw [show expSeriesAt c F subs x d = expCoeff c F subs x d from
          by rw [expSeriesAt, if_pos hm]]
        rw [expCoeff_expand c F subs x hz2]
        rw [psiAllOf_eq subs hsub1 x hz2]
        ring
    · rw [if_neg hm]
      exact (hgX d (by simpa using hm)).symm

/-- Direction two of the round trip: `Exp(Log(y))` agrees with `y` at
every dimension vector once the fuel exceeds its coordinate sum. -/
theorem roundtrip_b {A : Type} [Field A] (c : Cone) (F : ℕ)
    (subs : ℕ → A → A) (y : DV → A)
    (hlex : ∀ d b e, e ∈ c.summandsBelow d b → lexLt e b = true)
    (hlen : ∀ d b e, e ∈ c.summandsBelow d b → e.length = d.length)
    (hkey : ∀ d p, c.mem d = true → p ∈ partsAux c F d d →
      ∀ em ∈ p, c.mem em.1 = true ∧ csum em.1 < csum d)
    (hdiv : ∀ d k, c.mem d = true → isZero d = false →
      k ∈ divisorsList (nOf d) → k ≠ 1 → csum (sdiv d k) < csum d)
    (hsub1 : ∀ a : A, subs 1 a = a)
    (hy1 : ∀ d, isZero d = true → c.mem d = true → y d = 1)
    (hgY : ∀ d, c.mem d = false → y d = 0) :
    ∀ (f : ℕ) (d : DV), csum d < f →
      expSeriesAt c F subs (fun v => logAt c F subs y f v) d = y d := by
  intro f d hf
  by_cases hm : c.mem d = true
  · rw [expSeriesAt, if_pos hm]
    by_cases hz : isZero d = true
    · rw [expCoeff, if_pos hz]
      exact (hy1 d hz hm).symm
    · have hz2 : isZero d = false := by simpa using hz
      cases f with
      | zero => omega
      | succ f0 =>
        rw [show (fun v => logAt c F subs y (f0 + 1) v) =
          logAt c F subs y (f0 + 1) from rfl]
        rw [expCoeff_expand c F subs _ hz2]
        have hstab : ∀ v, csum v < csum d →
            logAt c F subs y f0 v = logAt c F subs y (f0 + 1) v :=
          fun v hv => logAt_stab hlex hlen hkey hdiv (csum d) v f0 (f0 + 1)
            hv (by omega) (by omega)
        have hunfold : logAt c F subs y (f0 + 1) d =
            y d - psiRedOf subs (logAt c F subs y (f0 + 1)) d -
              ((partsAux c F d d).map (fun p => (p.map (fun em =>
                (psiRedOf subs (logAt c F subs y (f0 + 1)) em.1 +
                  logAt c F subs y (f0 + 1) em.1) ^ em.2 *
                ((em.2).factorial : A)⁻¹)).prod)).sum := by
          rw [logAt_succ, if_pos hm, if_neg hz]
          rw [logBody_congr hlex hlen hkey hdiv subs y hm hz2
            (logAt c F subs y f0) (logAt c F subs y (f0 + 1))
            hstab]
          rw [filter_nontrivial hlex hlen F d]
        rw [← sum_products_eq hlex hlen F subs hsub1
          (logAt c F subs y (f0 + 1)) d]
        rw [psiAllOf_eq subs hsub1 (logAt c F subs y (f0 + 1)) hz2]
        rw [hunfold]
        ring
  · rw [expSeriesAt, if_neg hm]
    exact (hgY d (by simpa using hm)).symm

/-- C2: over a cone honouring the documented `_summands` contract and
whose partition keys and exact divisor quotients strictly shrink the
coordinate-sum measure (both discharged for the standard cone by
`sc_hkey` and `sc_hdiv`), the plethystic transforms are mutually
inverse: for a series `x` vanishing at the zero vector,
`Log(Exp(x))` equals `x` coefficient-wise at every dimension vector,
and for a series `y` equal to the ring unit at the zero vector,
`Exp(Log(y))` equals `y` (the fuel must only exceed the coordinate sum
of the queried vector). -/
theorem C2_round_trip {A : Type} [Field A] (c : Cone) (F : ℕ)
    (subs : ℕ → A → A) (x y : DV → A)
    (hlex : ∀ d b e, e ∈ c.summandsBelow d b → lexLt e b = true)
    (hlen : ∀ d b e, e ∈ c.summandsBelow d b → e.length = d.length)
    (hkey : ∀ d p, c.mem d = true → p ∈ partsAux c F d d →
      ∀ em ∈ p, c.mem em.1 = true ∧ csum em.1 < csum d)
    (hdiv : ∀ d k, c.mem d = true → isZero d = false →
      k ∈ divisorsList (nOf d) → k ≠ 1 → csum (sdiv d k) < csum d)
    (hsub1 : ∀ a : A, subs 1 a = a)
    (hx0 : ∀ d, isZero d = true → x d = 0)
    (hgX : ∀ d, c.mem d = false → x d = 0)
    (hy1 : ∀ d, isZero d = true → c.mem d = true → y d = 1)
    (hgY : ∀ d, c.mem d = false → y d = 0) :
    (∀ (f : ℕ) (d : DV), csum d < f →
      logAt c F subs (expSeriesAt c F subs x) f d = x d) ∧
    (∀ (f : ℕ) (d : DV), csum d < f →
      expSeriesAt c F subs (fun v => logAt c F subs y f v) d = y d) :=
  ⟨roundtrip_a c F subs x hlex hlen hkey hdiv hsub1 hx0 hgX,
   roundtrip_b c F subs y hlex hlen hkey hdiv hsub1 hy1 hgY⟩

/-- Sample argument series for the round-trip witness: the indicator of
the nonzero members of the rank-1 standard cone (vanishes at zero). -/
def xSample : DV → ℚ :=
  fun v => if (sc 1).mem v && !(isZero v) then 1 else 0

/-- Sample series for the second direction: the indicator of the
rank-1 standard cone (equal to the ring unit at the zero vector). -/
def ySample : DV → ℚ :=
  fun v => if (sc 1).mem v then 1 else 0

/-- Witness for C2 at the standard cone of rank 1 with the identity
substitution, evaluated at `d = (2)`. -/
theorem C2_witness :
    logAt (sc 1) 8 (fun _ a => a)
      (expSeriesAt (sc 1) 8 (fun _ a => a) xSample) 3 [2] = xSample [2] ∧
    expSeriesAt (sc 1) 8 (fun _ a => a)
      (fun v => logAt (sc 1) 8 (fun _ a => a) ySample 3 v) [2] =
      ySample [2] := by
  have h := C2_round_trip (sc 1) 8 (fun _ a => a) xSample ySample
    (sc_hlex 1) (sc_hlen 1) (sc_hkey 1 8) (sc_hdiv 1)
    (fun a => rfl)
    (fun d hd => by simp [xSample, hd])
    (fun d hd => by simp [xSample, hd])
    (fun d hd hm => by simp [ySample, hm])
    (fun d hd => by simp [ySample, hd])
  exact ⟨h.1 3 [2] (by decide), h.2 3 [2] (by decide)⟩

/-- Witness for C1 (amended) at a concrete instance. -/
theorem C1_witness :
    normalizedMotiveAt (sc 1) (3 : ℚ) [((0, 0), 1)] (fun _ => 5) [2] =
      seriesAt (sc 1) (fun _ => (5 : ℚ)) [2] *
        (3 : ℚ) ^ bilin [((0, 0), 1)] [2] [2] :=
  C1_normalized_multiplies (sc 1) 3 [((0, 0), 1)] (fun _ => 5) [2]

/-- Witness for C4 (amended) at the counterexample's extension step. -/
theorem C4_witness :
    hnExtExponent hnStab [1, 0] [[0, 1]] 0 =
      0 + ([[0, 1]].map (fun p =>
        if phaseLt hnStab [1, 0] p then cyPair hnStab p [1, 0]
        else cyPair hnStab [1, 0] p)).sum :=
  C4_hn_exponent_adds hnStab [1, 0] [[0, 1]] 0

/-- Witness for C7 at concrete series: a vanishing argument passes
Exp's validation, the constant-one argument still hits Log's
TypeError. -/
theorem C7_witness :
    expValidate (sc 1) (fun _ => (0 : ℚ)) = .ok () ∧
      logValidate (sc 1) (fun _ => (1 : ℚ)) =
        .error "TypeError: zero() got an unexpected keyword argument" :=
  ⟨(C7_validate_behaviour.1 (sc 1) (fun _ => 0)).mpr (by
      simp [seriesAt]),
   C7_validate_behaviour.2.1 (sc 1) (fun _ => 1)⟩

/-- Witness for C9 at a lower-half-plane phase. -/
theorem C9_witness :
    (PPhase.mk 1 (-1) 0).covers (0, 0) = !(PPhase.mk 1 (-1) 0).isUpper :=
  C9_covers_zero_bug.1 ⟨1, -1, 0⟩

/-- Witness for C10 at a concrete one-key map. -/
theorem C10_witness :
    pairingValidate 2 [((0, 1), 5)] = .ok () ↔
      ∀ kv ∈ [(((0 : ℤ), (1 : ℤ)), (5 : ℤ))],
        ¬((kv.1.1 < 0 ∨ (2 : ℤ) ≤ kv.1.1) ∧
          (kv.1.2 < 0 ∨ (2 : ℤ) ≤ kv.1.2)) :=
  C10_pairing_validate_and.1 2 [((0, 1), 5)]

end DT

